import Mathlib

/-!
# Verification of the kitchen-fridge sync core and iCal adapter

Shallow embedding of the repository's source:

* `Ical` — the format adapter of `src/ical/parser.rs`.  The external `ical`
  crate lexes the raw text into `IcalCalendar` structures (calendars holding
  `events`, `todos` and `journals`, each a list of components carrying
  name/value properties); `parse` consumes the stream of lexing results.  We
  embed `parse` over that already-lexed stream, mirroring the source
  line by line.
* `Sync` — the provider of `src/provider.rs`.  The calendar and source trait
  implementations (`traits.rs`, `cache.rs`, `calendar.rs`) are not part of the
  given sources, so those operations are modelled from the spec's interface
  contract (each such definition says so in its doc comment); `sync` itself is
  a faithful translation of `Provider::sync`.
-/

namespace KitchenFridge

/-! ## The iCal format adapter (`src/ical/parser.rs`) -/

namespace Ical

/-- A name/value property of an iCal component, as produced by the external
`ical` crate: the value is optional. -/
structure IcalProperty where
  name : String
  value : Option String
deriving DecidableEq, Repr

/-- A `VTODO` component: its list of properties. -/
structure IcalTodo where
  properties : List IcalProperty
deriving DecidableEq, Repr

/-- A `VEVENT` component: its list of properties. -/
structure IcalEvent where
  properties : List IcalProperty
deriving DecidableEq, Repr

/-- A `VJOURNAL` component: its list of properties. -/
structure IcalJournal where
  properties : List IcalProperty
deriving DecidableEq, Repr

/-- One `BEGIN:VCALENDAR`/`END:VCALENDAR` envelope, as lexed by the `ical`
crate: the events, todos and journals it contains. -/
structure IcalCalendar where
  events : List IcalEvent
  todos : List IcalTodo
  journals : List IcalJournal
deriving DecidableEq, Repr

/-- An opaque version marker (`item.rs` is outside the given sources;
the spec describes it as an uninterpreted ETag equivalent). -/
abbrev VersionTag := String

/-- Modelled from the spec: the per-item sync state machine of §3
(`item.rs` is not among the given sources). -/
inductive SyncStatus where
  | notSynced : SyncStatus
  | synced : VersionTag → SyncStatus
  | locallyModified : VersionTag → SyncStatus
  | locallyDeleted : VersionTag → SyncStatus
deriving DecidableEq, Repr

/-- Modelled from the spec: the `Task` built by
`Task::new_with_parameters(name, completed, uid, item_id, sync_status)`
(`task.rs` is not among the given sources; §3 lists these attributes). -/
structure Task where
  name : String
  completed : Bool
  uid : String
  id : String
  syncStatus : SyncStatus
deriving DecidableEq, Repr

/-- The parser's output: a task, or the empty `Event` placeholder
(the spec notes the parser converts a `VEVENT` into an empty placeholder). -/
inductive Item where
  | event : Item
  | task : Task → Item
deriving DecidableEq, Repr

/-- The error message of `assert_single_type`. -/
def singleTypeError : String := "Only a single TODO or a single EVENT is supported"

/-- The component selected by `assert_single_type`. -/
inductive CurrentType where
  | event : IcalEvent → CurrentType
  | todo : IcalTodo → CurrentType
deriving DecidableEq, Repr

/-- `assert_single_type` from `src/ical/parser.rs`: accept exactly one
`VEVENT` (with no todos and no journals) or exactly one `VTODO` (with no
events and no journals); reject everything else. -/
def assert_single_type (item : IcalCalendar) : Except String CurrentType :=
  if h : item.events.length = 1 then
    if item.todos.length ≠ 0 ∨ item.journals.length ≠ 0 then
      .error singleTypeError
    else
      .ok (.event (item.events.get ⟨0, by omega⟩))
  else if h2 : item.todos.length = 1 then
    if item.events.length ≠ 0 ∨ item.journals.length ≠ 0 then
      .error singleTypeError
    else
      .ok (.todo (item.todos.get ⟨0, by omega⟩))
  else
    .error singleTypeError

/-- The property loop of `parse` over a `VTODO`'s properties: each `SUMMARY`
overwrites `name` with its (optional) value, each `UID` overwrites `uid`,
and a `STATUS` whose value is `COMPLETED` sets `completed` (never clears it). -/
def scanTodoProperties (props : List IcalProperty) :
    Option String × Option String × Bool :=
  props.foldl
    (fun acc prop =>
      let name := if prop.name = "SUMMARY" then prop.value else acc.1
      let completed :=
        if prop.name = "STATUS" ∧ prop.value = some "COMPLETED" then true
        else acc.2.2
      let uid := if prop.name = "UID" then prop.value else acc.2.1
      (name, uid, completed))
    (none, none, false)

/-- The `VTODO` branch of `parse`: run the property loop, then fail when no
name or no uid was collected, otherwise build the `Task`. -/
def parseTodo (todo : IcalTodo) (item_id : String) (sync_status : SyncStatus) :
    Except String Item :=
  match scanTodoProperties todo.properties with
  | (name?, uid?, completed) =>
    match name? with
    | none => .error "Missing name for item"
    | some name =>
      match uid? with
      | none => .error "Missing UID for item"
      | some uid => .ok (.task ⟨name, completed, uid, item_id, sync_status⟩)

/-- `parse` from `src/ical/parser.rs`, over the stream of envelope results
produced by the `ical` crate's reader: no envelope at all is an error, a
failed first envelope is an error, otherwise the single-component rule and
the `VTODO` field rules apply; finally, a *successfully lexed* second
envelope is rejected (`reader.next().map(is_ok) == Some(true)`). -/
def parse (reader : List (Except String IcalCalendar)) (item_id : String)
    (sync_status : SyncStatus) : Except String Item :=
  match reader with
  | [] => .error "Invalid uCal data to parse for item"
  | .error _ :: _ => .error "Unable to parse uCal data for item"
  | .ok parsed_item :: rest =>
    match assert_single_type parsed_item with
    | .error e => .error e
    | .ok current =>
      let item : Except String Item :=
        match current with
        | .event _ => .ok .event
        | .todo todo => parseTodo todo item_id sync_status
      match item with
      | .error e => .error e
      | .ok item =>
        match rest with
        | .ok _ :: _ => .error "Parsing multiple items are not supported"
        | _ => .ok item

/-- Whether a parse result is an error. -/
def isErr (r : Except String Item) : Bool :=
  match r with
  | .error _ => true
  | .ok _ => false

/-- The value carried by the last property of the given name, the way the
source's overwrite-in-a-loop computes it: `none` when the property never
occurs or its last occurrence carries no value. -/
def lastPropValue (props : List IcalProperty) (n : String) : Option String :=
  props.foldl (fun acc prop => if prop.name = n then prop.value else acc) none

/-- Whether some property of the list is a `STATUS` with value `COMPLETED`. -/
def hasCompletedStatus (props : List IcalProperty) : Bool :=
  props.any (fun prop => prop.name = "STATUS" ∧ prop.value = some "COMPLETED")

end Ical

/-! ## The sync orchestrator (`src/provider.rs`) -/

namespace Sync

/-- Item identifiers (URL-shaped in the source; opaque here). -/
abbrev ItemId := Nat

/-- Calendar identifiers. -/
abbrev CalendarId := Nat

/-- Timestamps (`DateTime<Utc>` in the source; the provider only compares
them, so any linearly ordered counter suffices). -/
abbrev Timestamp := Nat

/-- The sync-relevant view of a `crate::Item` (`item.rs` is outside the given
sources): its identity, an uninterpreted content, and the modification time
the calendars' windowed queries consult. -/
structure Item where
  id : ItemId
  content : Nat
  lastModified : Timestamp
deriving DecidableEq, Repr

/-- Modelled from the spec: a calendar is a mapping from `ItemId` to `Item`
together with the deletion log backing the "ids deleted after watermark"
query (§3, §4.2; the `PartialCalendar`/`CompleteCalendar` implementations
are not among the given sources). -/
structure Calendar where
  items : List (ItemId × Item)
  deletions : List (ItemId × Timestamp)
deriving DecidableEq, Repr

/-- Point query: the item stored under a given id. -/
def Calendar.getItem (c : Calendar) (i : ItemId) : Option Item :=
  (c.items.find? (fun p => p.1 == i)).map Prod.snd

/-- Modelled from the spec: `get_item_ids()` returns the set of ids. -/
def Calendar.getItemIds (c : Calendar) : List ItemId :=
  c.items.map Prod.fst

/-- Modelled from the spec: `find_deletions_from(known_ids)` returns the ids
present in `known_ids` but absent from this calendar (§4.2). -/
def Calendar.findDeletionsFrom (c : Calendar) (knownIds : List ItemId) :
    List ItemId :=
  knownIds.filter (fun i => !(c.items.any (fun p => p.1 == i)))

/-- Modelled from the spec: `get_items_modified_since(watermark, ...)`
returns the items modified after the watermark, or all items when the
watermark is `None` (§4.2; the source always passes no excluded uid). -/
def Calendar.getItemsModifiedSince (c : Calendar) (since : Option Timestamp) :
    List (ItemId × Item) :=
  match since with
  | none => c.items
  | some w => c.items.filter (fun p => decide (w < p.2.lastModified))

/-- Modelled from the spec: `get_items_deleted_since(date)` returns the ids
whose logged deletion happened after the date (§3: "ids deleted after
watermark W"). -/
def Calendar.getItemsDeletedSince (c : Calendar) (since : Timestamp) :
    List ItemId :=
  (c.deletions.filter (fun p => decide (since < p.2))).map Prod.fst

/-- Modelled from the spec: `add_item` stores the item under its own id,
replacing any previous item with that id (§3: keys unique). -/
def Calendar.addItem (c : Calendar) (it : Item) : Calendar :=
  { c with items := c.items.filter (fun p => !(p.1 == it.id)) ++ [(it.id, it)] }

/-- Modelled from the spec: `delete_item` removes the id from the mapping and
logs the deletion at the current time. -/
def Calendar.deleteItem (c : Calendar) (now : Timestamp) (i : ItemId) :
    Calendar :=
  { items := c.items.filter (fun p => !(p.1 == i)),
    deletions := c.deletions ++ [(i, now)] }

/-- `remove_from_calendar` from `src/provider.rs`: delete every listed id. -/
def removeFromCalendar (now : Timestamp) (ids : List ItemId) (c : Calendar) :
    Calendar :=
  ids.foldl (fun cal i => cal.deleteItem now i) c

/-- `move_to_calendar` from `src/provider.rs`: add every listed item. -/
def moveToCalendar (its : List Item) (c : Calendar) : Calendar :=
  its.foldl (fun cal it => cal.addItem it) c

/-- The `server_mod` collection of `Provider::sync`: server items modified
since the last sync. -/
def serverModOf (lastSync : Option Timestamp) (calServer : Calendar) :
    List (ItemId × Item) :=
  calServer.getItemsModifiedSince lastSync

/-- The `tasks_id_to_remove_from_local` vector before the conflict loop:
empty on a first sync, otherwise the ids present locally but absent from the
server. -/
def remoteDeletions (lastSync : Option Timestamp)
    (calServer calLocal : Calendar) : List ItemId :=
  match lastSync with
  | none => []
  | some _ => calServer.findDeletionsFrom calLocal.getItemIds

/-- The full `tasks_id_to_remove_from_local` vector: the remote deletions
followed by every server-modified id (the source's conflict loop pushes each
`server_mod` key unconditionally, since its membership test is on
`server_mod` itself). -/
def localRemovals (lastSync : Option Timestamp)
    (calServer calLocal : Calendar) : List ItemId :=
  remoteDeletions lastSync calServer calLocal
    ++ (serverModOf lastSync calServer).map Prod.fst

/-- The local calendar after `remove_from_calendar` applied the pulled
removals (the state on which the push phase runs its queries). -/
def localAfterPull (now : Timestamp) (lastSync : Option Timestamp)
    (calServer calLocal : Calendar) : Calendar :=
  removeFromCalendar now (localRemovals lastSync calServer calLocal) calLocal

/-- The `local_del` set: ids deleted locally since the watermark, empty on a
first sync; queried on the local calendar after the pull phase mutated it. -/
def localDelOf (now : Timestamp) (lastSync : Option Timestamp)
    (calServer calLocal : Calendar) : List ItemId :=
  match lastSync with
  | none => []
  | some date =>
    (localAfterPull now lastSync calServer calLocal).getItemsDeletedSince date

/-- The `tasks_id_to_remove_from_server` vector: local deletions that do not
collide with a server modification (conflict check: server wins). -/
def serverRemovals (now : Timestamp) (lastSync : Option Timestamp)
    (calServer calLocal : Calendar) : List ItemId :=
  (localDelOf now lastSync calServer calLocal).filter
    (fun i => !((serverModOf lastSync calServer).any (fun p => p.1 == i)))

/-- The surviving `local_mod` entries: local items modified since the
watermark (queried after the pull phase) that do not collide with a server
modification. -/
def localModOf (now : Timestamp) (lastSync : Option Timestamp)
    (calServer calLocal : Calendar) : List (ItemId × Item) :=
  ((localAfterPull now lastSync calServer calLocal).getItemsModifiedSince
      lastSync).filter
    (fun p => !((serverModOf lastSync calServer).any (fun q => q.1 == p.1)))

/-- One iteration of the calendar loop of `Provider::sync`: pull the remote
removals and modifications into the local calendar, push the surviving local
deletions and modifications to the server; returns the updated
(server, local) pair. -/
def syncCalendarPair (now : Timestamp) (lastSync : Option Timestamp)
    (calServer calLocal : Calendar) : Calendar × Calendar :=
  ( moveToCalendar ((localModOf now lastSync calServer calLocal).map Prod.snd)
      (removeFromCalendar now (serverRemovals now lastSync calServer calLocal)
        calServer),
    moveToCalendar ((serverModOf lastSync calServer).map Prod.snd)
      (localAfterPull now lastSync calServer calLocal) )

/-- The state held by a `Provider`: the server source's calendars, the local
source's calendars, and the local source's last-sync watermark. -/
structure ProviderState where
  serverCals : List (CalendarId × Calendar)
  localCals : List (CalendarId × Calendar)
  lastSync : Option Timestamp
deriving DecidableEq, Repr

/-- Replace the calendar stored under an id (the in-place mutation of the
shared local calendar resolved by `get_calendar`). -/
def updateCal (cals : List (CalendarId × Calendar)) (id : CalendarId)
    (c : Calendar) : List (CalendarId × Calendar) :=
  cals.map (fun p => if p.1 = id then (id, c) else p)

/-- The calendar loop of `Provider::sync`: for each server calendar, resolve
the matching local calendar (skipping, without error, when there is none) and
merge the pair; returns the updated server calendars and local calendars. -/
def syncLoop (now : Timestamp) (lastSync : Option Timestamp) :
    List (CalendarId × Calendar) → List (CalendarId × Calendar) →
    List (CalendarId × Calendar) × List (CalendarId × Calendar)
  | [], localCals => ([], localCals)
  | (id, calServer) :: rest, localCals =>
    match localCals.find? (fun p => p.1 == id) with
    | none =>
      let r := syncLoop now lastSync rest localCals
      ((id, calServer) :: r.1, r.2)
    | some found =>
      let merged := syncCalendarPair now lastSync calServer found.2
      let r := syncLoop now lastSync rest (updateCal localCals id merged.2)
      ((id, merged.1) :: r.1, r.2)

/-- `Provider::sync`: read the watermark once, fetch the server's calendars
(`serverOk = false` models a failing `get_calendars`, which aborts the whole
pass with an error before anything is touched — the result is `none` and the
provider state is unchanged), run the calendar loop, then advance the
watermark to the current time. -/
def sync (serverOk : Bool) (now : Timestamp) (st : ProviderState) :
    Option ProviderState :=
  if serverOk then
    let r := syncLoop now st.lastSync st.serverCals st.localCals
    some { serverCals := r.1, localCals := r.2, lastSync := some now }
  else
    none

/-- Ordering on watermarks: an absent watermark precedes everything, and
present watermarks compare by their timestamps. -/
def wmLe : Option Timestamp → Option Timestamp → Prop
  | none, _ => True
  | some a, some b => a ≤ b
  | some _, none => False

instance : ∀ a b : Option Timestamp, Decidable (wmLe a b)
  | none, _ => isTrue trivial
  | some a, some b => inferInstanceAs (Decidable (a ≤ b))
  | some _, none => isFalse (fun h => h)

/-- Every stored item is keyed by its own id. -/
def keyWF (c : Calendar) : Prop :=
  ∀ p ∈ c.items, p.2.id = p.1

/-- Every item modification time and every logged deletion time is at most
the given time (clocks do not run ahead of the sync pass). -/
def timesLE (c : Calendar) (t : Timestamp) : Prop :=
  (∀ p ∈ c.items, p.2.lastModified ≤ t) ∧ (∀ q ∈ c.deletions, q.2 ≤ t)

/-- A logged-deleted id is not (or no longer) present in the mapping. -/
def delConsistent (c : Calendar) : Prop :=
  ∀ q ∈ c.deletions, ∀ p ∈ c.items, p.1 ≠ q.1

instance : DecidablePred keyWF := fun c =>
  inferInstanceAs (Decidable (∀ p ∈ c.items, p.2.id = p.1))

instance (c : Calendar) (t : Timestamp) : Decidable (timesLE c t) :=
  inferInstanceAs (Decidable (_ ∧ _))

instance : DecidablePred delConsistent := fun c =>
  inferInstanceAs (Decidable (∀ q ∈ c.deletions, ∀ p ∈ c.items, p.1 ≠ q.1))

/-- Well-formedness of a provider state at a given time: unique calendar
ids on both sources, and every calendar key-consistent, clock-consistent and
deletion-consistent. -/
def WFState (st : ProviderState) (t : Timestamp) : Prop :=
  (st.serverCals.map Prod.fst).Nodup ∧
  (st.localCals.map Prod.fst).Nodup ∧
  (∀ p ∈ st.serverCals, keyWF p.2 ∧ timesLE p.2 t) ∧
  (∀ p ∈ st.localCals, keyWF p.2 ∧ timesLE p.2 t ∧ delConsistent p.2)

instance (st : ProviderState) (t : Timestamp) : Decidable (WFState st t) :=
  inferInstanceAs (Decidable (_ ∧ _))

end Sync

/-! ## Lemmas about the format adapter -/

namespace Ical

theorem scanTodoProperties_go (props : List IcalProperty) :
    ∀ acc : Option String × Option String × Bool,
    props.foldl
      (fun acc prop =>
        let name := if prop.name = "SUMMARY" then prop.value else acc.1
        let completed :=
          if prop.name = "STATUS" ∧ prop.value = some "COMPLETED" then true
          else acc.2.2
        let uid := if prop.name = "UID" then prop.value else acc.2.1
        (name, uid, completed))
      acc =
    (props.foldl (fun a prop => if prop.name = "SUMMARY" then prop.value else a)
        acc.1,
      props.foldl (fun a prop => if prop.name = "UID" then prop.value else a)
        acc.2.1,
      acc.2.2 || props.any
        (fun prop => prop.name = "STATUS" ∧ prop.value = some "COMPLETED")) := by
  induction props with
  | nil => intro acc; simp
  | cons p rest ih =>
    intro acc
    rw [List.foldl_cons, ih]
    by_cases h1 : p.name = "STATUS"
    · by_cases h2 : p.value = some "COMPLETED"
      · simp [h1, h2, Bool.or_assoc]
      · simp [h1, h2]
    · simp [h1]

/-- The property loop computes: last `SUMMARY` value, last `UID` value, and
whether some `STATUS` property carries the value `COMPLETED`. -/
theorem scanTodoProperties_eq (props : List IcalProperty) :
    scanTodoProperties props =
      (lastPropValue props "SUMMARY", lastPropValue props "UID",
        hasCompletedStatus props) := by
  rw [scanTodoProperties, scanTodoProperties_go]
  simp [lastPropValue, hasCompletedStatus]

theorem parseTodo_isErr_iff (t : IcalTodo) (item_id : String)
    (ss : SyncStatus) :
    isErr (parseTodo t item_id ss) = true ↔
      lastPropValue t.properties "SUMMARY" = none ∨
      lastPropValue t.properties "UID" = none := by
  rw [parseTodo, scanTodoProperties_eq]
  cases hs : lastPropValue t.properties "SUMMARY" <;>
    cases hu : lastPropValue t.properties "UID" <;> simp [isErr]

theorem parseTodo_ok (t : IcalTodo) (item_id : String) (ss : SyncStatus)
    (task : Task) (h : parseTodo t item_id ss = .ok (.task task)) :
    lastPropValue t.properties "SUMMARY" = some task.name ∧
    lastPropValue t.properties "UID" = some task.uid ∧
    task.completed = hasCompletedStatus t.properties := by
  rw [parseTodo, scanTodoProperties_eq] at h
  rcases hs : lastPropValue t.properties "SUMMARY" with _ | name <;>
    rcases hu : lastPropValue t.properties "UID" with _ | uid <;>
      rw [hs, hu] at h
  · simp at h
  · simp at h
  · simp at h
  · have hinj : Item.task
        ⟨name, hasCompletedStatus t.properties, uid, item_id, ss⟩ =
        Item.task task := Except.ok.inj h
    have heq := Item.task.inj hinj
    subst heq
    exact ⟨rfl, rfl, rfl⟩

theorem parse_single_todo (t : IcalTodo) (rest : List (Except String IcalCalendar))
    (item_id : String) (ss : SyncStatus)
    (hrest : ∀ c, rest.head? ≠ some (.ok c)) :
    parse (.ok ⟨[], [t], []⟩ :: rest) item_id ss = parseTodo t item_id ss := by
  rw [parse]
  have hassert : assert_single_type ⟨[], [t], []⟩ = .ok (.todo t) := by
    rw [assert_single_type]; simp
  rw [hassert]
  dsimp only
  cases h : parseTodo t item_id ss with
  | error e => rfl
  | ok item =>
    cases rest with
    | nil => rfl
    | cons r rs =>
      cases r with
      | error e => rfl
      | ok c => exact absurd rfl (hrest c)

theorem parse_isErr_two_ok (c1 c2 : IcalCalendar)
    (rest : List (Except String IcalCalendar)) (item_id : String)
    (ss : SyncStatus) :
    isErr (parse (.ok c1 :: .ok c2 :: rest) item_id ss) = true := by
  rw [parse]
  dsimp only
  cases h : assert_single_type c1 with
  | error e => rfl
  | ok current =>
    cases current with
    | event ev => rfl
    | todo t =>
      dsimp only
      cases hp : parseTodo t item_id ss with
      | error e => rfl
      | ok item => rfl

theorem parse_ok_todo (t : IcalTodo) (rest : List (Except String IcalCalendar))
    (item_id : String) (ss : SyncStatus) (x : Item)
    (h : parse (.ok ⟨[], [t], []⟩ :: rest) item_id ss = .ok x) :
    parseTodo t item_id ss = .ok x := by
  cases rest with
  | nil => rw [parse_single_todo t [] item_id ss (by simp)] at h; exact h
  | cons r rs =>
    cases r with
    | error e =>
      rw [parse_single_todo t (.error e :: rs) item_id ss (by simp)] at h
      exact h
    | ok c =>
      have herr := parse_isErr_two_ok ⟨[], [t], []⟩ c rs item_id ss
      rw [h] at herr
      exact absurd herr (by simp [isErr])

theorem assert_single_type_error_of_none (cal : IcalCalendar)
    (he : cal.events = []) (ht : cal.todos = []) :
    assert_single_type cal = .error singleTypeError := by
  rw [assert_single_type]
  simp [he, ht]

theorem assert_single_type_error_of_both (cal : IcalCalendar)
    (he : 1 ≤ cal.events.length) (ht : 1 ≤ cal.todos.length) :
    assert_single_type cal = .error singleTypeError := by
  rw [assert_single_type]
  by_cases h1 : cal.events.length = 1
  · simp only [h1, dite_true, reduceDIte]
    have : cal.todos.length ≠ 0 := by omega
    simp [this]
  · simp only [h1, dite_false, reduceDIte]
    by_cases h2 : cal.todos.length = 1
    · simp only [h2, dite_true, reduceDIte]
      have : cal.events.length ≠ 0 := by omega
      simp [this]
    · simp [h2]

theorem assert_single_type_error_of_many_todos (cal : IcalCalendar)
    (ht : 2 ≤ cal.todos.length) :
    assert_single_type cal = .error singleTypeError := by
  rw [assert_single_type]
  have h2 : cal.todos.length ≠ 1 := by omega
  have h0 : cal.todos.length ≠ 0 := by omega
  by_cases h1 : cal.events.length = 1
  · simp [h1, h0]
  · simp [h1, h2]

theorem assert_single_type_error_of_journal (cal : IcalCalendar)
    (hj : 1 ≤ cal.journals.length)
    (h : (cal.todos.length = 1 ∧ cal.events = []) ∨
      (cal.events.length = 1 ∧ cal.todos = [])) :
    assert_single_type cal = .error singleTypeError := by
  rw [assert_single_type]
  have hj0 : cal.journals.length ≠ 0 := by omega
  rcases h with ⟨h1, h2⟩ | ⟨h1, h2⟩
  · have : cal.events.length ≠ 1 := by simp [h2]
    simp [this, h1, hj0]
  · simp [h1, hj0]

theorem parse_isErr_of_assert_error (cal : IcalCalendar)
    (rest : List (Except String IcalCalendar)) (item_id : String)
    (ss : SyncStatus) (e : String) (h : assert_single_type cal = .error e) :
    isErr (parse (.ok cal :: rest) item_id ss) = true := by
  rw [parse, h]
  rfl

theorem hasCompletedStatus_iff (props : List IcalProperty) :
    hasCompletedStatus props = true ↔
      ∃ p ∈ props, p.name = "STATUS" ∧ p.value = some "COMPLETED" := by
  simp [hasCompletedStatus]

/-! ### Claims about the format adapter -/

/-- C5 (amended): a payload whose first envelope holds zero VTODO/VEVENT, or
both a VTODO and a VEVENT, or more than one VTODO, or whose second envelope
is *successfully lexed*, is rejected with an error.  (As stated the claim
also covered a second envelope that itself fails to lex; the code silently
ignores that one — see the counterexample.) -/
theorem claim_C5 (reader : List (Except String IcalCalendar))
    (cal : IcalCalendar) (item_id : String) (ss : SyncStatus)
    (hhead : reader.head? = some (.ok cal))
    (hcond : (cal.todos = [] ∧ cal.events = []) ∨
      (1 ≤ cal.todos.length ∧ 1 ≤ cal.events.length) ∨
      2 ≤ cal.todos.length ∨
      (∃ c2, reader.tail.head? = some (.ok c2))) :
    isErr (parse reader item_id ss) = true := by
  cases reader with
  | nil => simp at hhead
  | cons r rest =>
    simp at hhead
    subst hhead
    rcases hcond with ⟨ht, he⟩ | ⟨ht, he⟩ | ht | ⟨c2, hc2⟩
    · exact parse_isErr_of_assert_error cal rest item_id ss _
        (assert_single_type_error_of_none cal he ht)
    · exact parse_isErr_of_assert_error cal rest item_id ss _
        (assert_single_type_error_of_both cal he ht)
    · exact parse_isErr_of_assert_error cal rest item_id ss _
        (assert_single_type_error_of_many_todos cal ht)
    · cases rest with
      | nil => simp at hc2
      | cons r2 rs =>
        simp at hc2
        subst hc2
        exact parse_isErr_two_ok cal c2 rs item_id ss

/-- C5 witness: an envelope with no component at all is rejected. -/
theorem claim_C5_witness :
    (([Except.ok (⟨[], [], []⟩ : IcalCalendar)] :
          List (Except String IcalCalendar)).head? =
        some (.ok (⟨[], [], []⟩ : IcalCalendar))) ∧
      isErr (parse [.ok ⟨[], [], []⟩] "item" .notSynced) = true :=
  ⟨rfl, claim_C5 [.ok ⟨[], [], []⟩] ⟨[], [], []⟩ "item" .notSynced rfl
    (Or.inl ⟨rfl, rfl⟩)⟩

/-- C5 counterexample: a payload made of two envelopes whose second fails to
lex is *accepted* — the malformed second envelope is silently dropped — so
the claim as stated ("two envelopes are always rejected, never silently
truncated") is false on the code. -/
theorem claim_C5_counterexample :
    parse
        [.ok ⟨[], [⟨[⟨"SUMMARY", some "a"⟩, ⟨"UID", some "u"⟩]⟩], []⟩,
          .error "lex failure"] "item" .notSynced =
      .ok (.task ⟨"a", false, "u", "item", .notSynced⟩) := by
  rfl

/-- C9: a journal component makes the single-component check fail even next
to an otherwise acceptable single VTODO or single VEVENT. -/
theorem claim_C9 (cal : IcalCalendar) (rest : List (Except String IcalCalendar))
    (item_id : String) (ss : SyncStatus)
    (hj : 1 ≤ cal.journals.length)
    (hsingle : (cal.todos.length = 1 ∧ cal.events = []) ∨
      (cal.events.length = 1 ∧ cal.todos = [])) :
    isErr (parse (.ok cal :: rest) item_id ss) = true :=
  parse_isErr_of_assert_error cal rest item_id ss _
    (assert_single_type_error_of_journal cal hj hsingle)

/-- C9 witness: one VTODO (with name and uid) plus one VJOURNAL is
rejected. -/
theorem claim_C9_witness :
    1 ≤ ([(⟨[]⟩ : IcalJournal)]).length ∧
      isErr (parse
        [.ok ⟨[], [⟨[⟨"SUMMARY", some "a"⟩, ⟨"UID", some "u"⟩]⟩], [⟨[]⟩]⟩]
        "item" .notSynced) = true :=
  ⟨by decide,
    claim_C9 ⟨[], [⟨[⟨"SUMMARY", some "a"⟩, ⟨"UID", some "u"⟩]⟩], [⟨[]⟩]⟩ []
      "item" .notSynced (by decide) (Or.inl ⟨rfl, rfl⟩)⟩

/-- C6 (amended): for a payload that is a single envelope holding exactly one
VTODO, `parse` errors iff the todo's last `SUMMARY` property carries no value
(or there is none) or its last `UID` property carries no value (or there is
none); on success the task's name and uid are those last carried values, and
its completed flag is set iff some `STATUS` property has value `COMPLETED`.
(As stated the claim keyed the error on the *presence* of the properties; a
present `SUMMARY` with an absent value is still an error — see the
counterexample.) -/
theorem claim_C6 (t : IcalTodo) (item_id : String) (ss : SyncStatus)
    (task : Task) :
    (isErr (parse [.ok ⟨[], [t], []⟩] item_id ss) = true ↔
      lastPropValue t.properties "SUMMARY" = none ∨
      lastPropValue t.properties "UID" = none) ∧
    (parse [.ok ⟨[], [t], []⟩] item_id ss = .ok (.task task) →
      lastPropValue t.properties "SUMMARY" = some task.name ∧
      lastPropValue t.properties "UID" = some task.uid ∧
      (task.completed = true ↔
        ∃ p ∈ t.properties, p.name = "STATUS" ∧ p.value = some "COMPLETED")) := by
  constructor
  · rw [parse_single_todo t [] item_id ss (by simp)]
    exact parseTodo_isErr_iff t item_id ss
  · intro h
    have hok := parse_ok_todo t [] item_id ss _ h
    obtain ⟨h1, h2, h3⟩ := parseTodo_ok t item_id ss task hok
    exact ⟨h1, h2, by rw [h3]; exact hasCompletedStatus_iff t.properties⟩

/-- C6 witness: a VTODO with `SUMMARY:a`, `UID:u` and `STATUS:COMPLETED`
parses into the expected task. -/
theorem claim_C6_witness :
    (isErr (parse
        [.ok ⟨[], [⟨[⟨"SUMMARY", some "a"⟩, ⟨"UID", some "u"⟩,
          ⟨"STATUS", some "COMPLETED"⟩]⟩], []⟩] "i" .notSynced) = true ↔
      lastPropValue [⟨"SUMMARY", some "a"⟩, ⟨"UID", some "u"⟩,
        ⟨"STATUS", some "COMPLETED"⟩] "SUMMARY" = none ∨
      lastPropValue [⟨"SUMMARY", some "a"⟩, ⟨"UID", some "u"⟩,
        ⟨"STATUS", some "COMPLETED"⟩] "UID" = none) ∧
    (parse [.ok ⟨[], [⟨[⟨"SUMMARY", some "a"⟩, ⟨"UID", some "u"⟩,
          ⟨"STATUS", some "COMPLETED"⟩]⟩], []⟩] "i" .notSynced =
        .ok (.task ⟨"a", true, "u", "i", .notSynced⟩) →
      lastPropValue [⟨"SUMMARY", some "a"⟩, ⟨"UID", some "u"⟩,
        ⟨"STATUS", some "COMPLETED"⟩] "SUMMARY" = some "a" ∧
      lastPropValue [⟨"SUMMARY", some "a"⟩, ⟨"UID", some "u"⟩,
        ⟨"STATUS", some "COMPLETED"⟩] "UID" = some "u" ∧
      ((true : Bool) = true ↔
        ∃ p ∈ [(⟨"SUMMARY", some "a"⟩ : IcalProperty), ⟨"UID", some "u"⟩,
          ⟨"STATUS", some "COMPLETED"⟩],
          p.name = "STATUS" ∧ p.value = some "COMPLETED")) :=
  claim_C6 ⟨[⟨"SUMMARY", some "a"⟩, ⟨"UID", some "u"⟩,
    ⟨"STATUS", some "COMPLETED"⟩]⟩ "i" .notSynced ⟨"a", true, "u", "i", .notSynced⟩

/-- C6 counterexample: a VTODO that *has* a `SUMMARY` property and a `UID`
property is still rejected, because the `SUMMARY` carries no value; the
claim's "error iff the VTODO lacks a SUMMARY property or lacks a UID
property" is false on the code. -/
theorem claim_C6_counterexample :
    "SUMMARY" ∈
      ([⟨"SUMMARY", none⟩, ⟨"UID", some "u"⟩] : List IcalProperty).map
        IcalProperty.name ∧
    "UID" ∈
      ([⟨"SUMMARY", none⟩, ⟨"UID", some "u"⟩] : List IcalProperty).map
        IcalProperty.name ∧
    isErr (parse [.ok ⟨[], [⟨[⟨"SUMMARY", none⟩, ⟨"UID", some "u"⟩]⟩], []⟩]
      "i" .notSynced) = true := by
  refine ⟨by decide, by decide, ?_⟩
  rfl

/-- C10: a task accepted by `parse` is completed iff at least one `STATUS`
property of its VTODO carries the value `COMPLETED`; a later `STATUS` with a
different value does not reset the flag. -/
theorem claim_C10 (t : IcalTodo) (rest : List (Except String IcalCalendar))
    (item_id : String) (ss : SyncStatus) (task : Task)
    (h : parse (.ok ⟨[], [t], []⟩ :: rest) item_id ss = .ok (.task task)) :
    task.completed = true ↔
      ∃ p ∈ t.properties, p.name = "STATUS" ∧ p.value = some "COMPLETED" := by
  have hok := parse_ok_todo t rest item_id ss _ h
  obtain ⟨h1, h2, h3⟩ := parseTodo_ok t item_id ss task hok
  rw [h3]
  exact hasCompletedStatus_iff t.properties

/-- C10 witness: a `STATUS:COMPLETED` followed by `STATUS:NEEDS-ACTION`
still yields a completed task. -/
theorem claim_C10_witness :
    parse [.ok ⟨[], [⟨[⟨"SUMMARY", some "a"⟩, ⟨"UID", some "u"⟩,
        ⟨"STATUS", some "COMPLETED"⟩, ⟨"STATUS", some "NEEDS-ACTION"⟩]⟩], []⟩]
      "i" .notSynced = .ok (.task ⟨"a", true, "u", "i", .notSynced⟩) ∧
    (Task.mk "a" true "u" "i" .notSynced).completed = true :=
  ⟨by rfl,
    (claim_C10 ⟨[⟨"SUMMARY", some "a"⟩, ⟨"UID", some "u"⟩,
        ⟨"STATUS", some "COMPLETED"⟩, ⟨"STATUS", some "NEEDS-ACTION"⟩]⟩ []
      "i" .notSynced ⟨"a", true, "u", "i", .notSynced⟩ (by rfl)).mpr
      ⟨⟨"STATUS", some "COMPLETED"⟩, by decide⟩⟩

end Ical

/-! ## Lemmas about the calendar operations -/

namespace Sync

theorem find?_key_filter_ne (l : List (ItemId × Item)) (i j : ItemId)
    (hij : j ≠ i) :
    (l.filter (fun p => !(p.1 == i))).find? (fun p => p.1 == j) =
      l.find? (fun p => p.1 == j) := by
  induction l with
  | nil => rfl
  | cons p t ih =>
    by_cases h1 : p.1 = i
    · have hb : (p.1 == j) = false := by simp [h1, Ne.symm hij]
      rw [List.filter_cons_of_neg (by simp [h1])]
      rw [ih, List.find?_cons, hb]
    · rw [List.filter_cons_of_pos (by simp [h1])]
      by_cases h2 : p.1 = j
      · have hb : (p.1 == j) = true := by simp [h2]
        rw [List.find?_cons, List.find?_cons, hb]
      · have hb : (p.1 == j) = false := by simp [h2]
        rw [List.find?_cons, List.find?_cons, hb, ih]

theorem find?_key_filter_self (l : List (ItemId × Item)) (i : ItemId) :
    (l.filter (fun p => !(p.1 == i))).find? (fun p => p.1 == i) = none := by
  rw [List.find?_eq_none]
  intro x hx
  rw [List.mem_filter] at hx
  simpa using hx.2

theorem getItem_deleteItem (c : Calendar) (now : Timestamp) (i j : ItemId) :
    (c.deleteItem now i).getItem j = if j = i then none else c.getItem j := by
  by_cases hij : j = i
  · subst hij
    simp only [Calendar.getItem, Calendar.deleteItem, if_pos rfl]
    rw [find?_key_filter_self]
    rfl
  · simp only [Calendar.getItem, Calendar.deleteItem, if_neg hij]
    rw [find?_key_filter_ne _ _ _ hij]

theorem deletions_deleteItem (c : Calendar) (now : Timestamp) (i : ItemId) :
    (c.deleteItem now i).deletions = c.deletions ++ [(i, now)] := rfl

theorem getItem_removeFromCalendar (ids : List ItemId) (c : Calendar)
    (now : Timestamp) (j : ItemId) :
    (removeFromCalendar now ids c).getItem j =
      if j ∈ ids then none else c.getItem j := by
  induction ids generalizing c with
  | nil => simp [removeFromCalendar]
  | cons i t ih =>
    show (removeFromCalendar now t (c.deleteItem now i)).getItem j = _
    rw [ih]
    by_cases h1 : j ∈ t
    · simp [h1]
    · rw [if_neg h1, getItem_deleteItem]
      by_cases h2 : j = i
      · simp [h2]
      · simp [h1, h2]

theorem deletions_removeFromCalendar (ids : List ItemId) (c : Calendar)
    (now : Timestamp) :
    (removeFromCalendar now ids c).deletions =
      c.deletions ++ ids.map (fun i => (i, now)) := by
  induction ids generalizing c with
  | nil => simp [removeFromCalendar]
  | cons i t ih =>
    show (removeFromCalendar now t (c.deleteItem now i)).deletions = _
    rw [ih, deletions_deleteItem]
    simp

theorem mem_items_removeFromCalendar (ids : List ItemId) (c : Calendar)
    (now : Timestamp) (q : ItemId × Item)
    (h : q ∈ (removeFromCalendar now ids c).items) : q ∈ c.items := by
  induction ids generalizing c with
  | nil => exact h
  | cons i t ih =>
    have := ih (c.deleteItem now i) h
    simp only [Calendar.deleteItem, List.mem_filter] at this
    exact this.1

theorem getItem_addItem (c : Calendar) (it : Item) (j : ItemId) :
    (c.addItem it).getItem j = if j = it.id then some it else c.getItem j := by
  by_cases hj : j = it.id
  · subst hj
    simp only [Calendar.getItem, Calendar.addItem, if_pos rfl,
      List.find?_append, find?_key_filter_self]
    rw [List.find?_cons, show (((it.id, it) : ItemId × Item).1 == it.id) = true
      by simp]
    rfl
  · simp only [Calendar.getItem, Calendar.addItem, if_neg hj,
      List.find?_append, find?_key_filter_ne _ _ _ hj]
    have hone : ([(it.id, it)].find? (fun p => p.1 == j)) = none := by
      rw [List.find?_eq_none]
      intro x hx
      simp only [List.mem_singleton] at hx
      subst hx
      simp [Ne.symm hj]
    rw [hone]
    cases c.items.find? (fun p => p.1 == j) <;> rfl

theorem deletions_addItem (c : Calendar) (it : Item) :
    (c.addItem it).deletions = c.deletions := rfl

theorem deletions_moveToCalendar (its : List Item) (c : Calendar) :
    (moveToCalendar its c).deletions = c.deletions := by
  induction its generalizing c with
  | nil => rfl
  | cons it t ih =>
    show (moveToCalendar t (c.addItem it)).deletions = _
    rw [ih, deletions_addItem]

theorem mem_items_addItem (c : Calendar) (it : Item) (q : ItemId × Item)
    (h : q ∈ (c.addItem it).items) : q ∈ c.items ∨ q = (it.id, it) := by
  simp only [Calendar.addItem, List.mem_append, List.mem_filter,
    List.mem_singleton] at h
  rcases h with h | h
  · exact Or.inl h.1
  · exact Or.inr h

theorem mem_items_moveToCalendar (its : List Item) (c : Calendar)
    (q : ItemId × Item) (h : q ∈ (moveToCalendar its c).items) :
    q ∈ c.items ∨ (q.2 ∈ its ∧ q.1 = q.2.id) := by
  induction its generalizing c with
  | nil => exact Or.inl h
  | cons it t ih =>
    rcases ih (c.addItem it) h with h1 | h1
    · rcases mem_items_addItem c it q h1 with h2 | h2
      · exact Or.inl h2
      · subst h2; exact Or.inr ⟨List.mem_cons_self _ _, rfl⟩
    · exact Or.inr ⟨List.mem_cons_of_mem _ h1.1, h1.2⟩

theorem getItem_moveToCalendar_notMem (its : List Item) (c : Calendar)
    (j : ItemId) (h : ∀ it ∈ its, it.id ≠ j) :
    (moveToCalendar its c).getItem j = c.getItem j := by
  induction its generalizing c with
  | nil => rfl
  | cons it t ih =>
    show (moveToCalendar t (c.addItem it)).getItem j = _
    rw [ih _ (fun x hx => h x (List.mem_cons_of_mem _ hx)), getItem_addItem,
      if_neg]
    exact fun hj => h it (List.mem_cons_self _ _) (hj ▸ rfl)

theorem getItem_moveToCalendar_mem (its : List Item) (c : Calendar) (it : Item)
    (hnd : (its.map Item.id).Nodup) (hit : it ∈ its) :
    (moveToCalendar its c).getItem it.id = some it := by
  induction its generalizing c with
  | nil => simp at hit
  | cons x t ih =>
    simp only [List.map_cons, List.nodup_cons] at hnd
    rcases List.mem_cons.mp hit with h1 | h1
    · subst h1
      show (moveToCalendar t (c.addItem it)).getItem it.id = some it
      rw [getItem_moveToCalendar_notMem t _ it.id
        (fun y hy hid => hnd.1 (hid ▸ List.mem_map_of_mem Item.id hy)),
        getItem_addItem, if_pos rfl]
    · exact ih (c.addItem x) hnd.2 h1

theorem getItem_moveToCalendar_ne_none (its : List Item) (c : Calendar)
    (j : ItemId) :
    (moveToCalendar its c).getItem j ≠ none ↔
      (∃ it ∈ its, it.id = j) ∨ c.getItem j ≠ none := by
  induction its generalizing c with
  | nil => simp [moveToCalendar]
  | cons it t ih =>
    show (moveToCalendar t (c.addItem it)).getItem j ≠ none ↔ _
    rw [ih, getItem_addItem]
    by_cases hj : j = it.id
    · rw [if_pos hj]
      constructor
      · intro _
        exact Or.inl ⟨it, List.mem_cons_self _ _, hj.symm⟩
      · intro _
        right
        simp
    · rw [if_neg hj]
      constructor
      · rintro (⟨x, hx, hxj⟩ | h)
        · exact Or.inl ⟨x, List.mem_cons_of_mem _ hx, hxj⟩
        · exact Or.inr h
      · rintro (⟨x, hx, hxj⟩ | h)
        · rcases List.mem_cons.mp hx with h1 | h1
          · exact absurd (h1 ▸ hxj) (fun he => hj he.symm)
          · exact Or.inl ⟨x, h1, hxj⟩
        · exact Or.inr h

theorem getItem_isSome_iff (c : Calendar) (j : ItemId) :
    (c.getItem j).isSome = true ↔ j ∈ c.getItemIds := by
  unfold Calendar.getItem Calendar.getItemIds
  cases hf : c.items.find? (fun p => p.1 == j) with
  | none =>
    have hnone := List.find?_eq_none.mp hf
    constructor
    · intro h
      simp at h
    · intro h
      obtain ⟨p, hp, hjp⟩ := List.mem_map.mp h
      exact absurd (by simp [hjp]) (hnone p hp)
  | some x =>
    have hmem := List.mem_of_find?_eq_some hf
    have hkey := List.find?_some hf
    constructor
    · intro _
      simp only [beq_iff_eq] at hkey
      exact hkey ▸ List.mem_map_of_mem Prod.fst hmem
    · intro _
      rfl

theorem any_key_iff (c : Calendar) (j : ItemId) :
    c.items.any (fun p => p.1 == j) = true ↔ j ∈ c.getItemIds := by
  rw [List.any_eq_true]
  constructor
  · rintro ⟨p, hp, hpj⟩
    simp at hpj
    exact hpj ▸ List.mem_map_of_mem Prod.fst hp
  · intro h
    obtain ⟨p, hp, hj⟩ := List.mem_map.mp h
    exact ⟨p, hp, by simp [hj]⟩

theorem find?_key_of_mem_nodup (l : List (ItemId × Item)) (j : ItemId)
    (it : Item) (hnd : (l.map Prod.fst).Nodup) (h : (j, it) ∈ l) :
    l.find? (fun p => p.1 == j) = some (j, it) := by
  induction l with
  | nil => simp at h
  | cons p t ih =>
    simp only [List.map_cons, List.nodup_cons] at hnd
    rcases List.mem_cons.mp h with h1 | h1
    · rw [← h1, List.find?_cons, show (((j, it) : ItemId × Item).1 == j) = true
        by simp]
    · have hpj : (p.1 == j) = false := by
        simp only [beq_eq_false_iff_ne, ne_eq]
        intro hpj
        exact hnd.1 (by rw [hpj]; exact List.mem_map_of_mem Prod.fst h1)
      rw [List.find?_cons, hpj]
      exact ih hnd.2 h1

theorem getItem_eq_some_of_mem_nodup (c : Calendar) (j : ItemId) (it : Item)
    (hnd : c.getItemIds.Nodup) (h : (j, it) ∈ c.items) :
    c.getItem j = some it := by
  unfold Calendar.getItem
  rw [find?_key_of_mem_nodup c.items j it hnd h]
  rfl

theorem getItem_ne_none_iff (c : Calendar) (j : ItemId) :
    c.getItem j ≠ none ↔ j ∈ c.getItemIds := by
  rw [Option.ne_none_iff_isSome]
  exact getItem_isSome_iff c j

theorem any_fst_iff (l : List (ItemId × Item)) (j : ItemId) :
    l.any (fun p => p.1 == j) = true ↔ j ∈ l.map Prod.fst := by
  rw [List.any_eq_true]
  constructor
  · rintro ⟨p, hp, hpj⟩
    simp only [beq_iff_eq] at hpj
    exact hpj ▸ List.mem_map_of_mem Prod.fst hp
  · intro h
    obtain ⟨p, hp, hj⟩ := List.mem_map.mp h
    exact ⟨p, hp, by simp [hj]⟩

theorem keyWF_removeFromCalendar (ids : List ItemId) (c : Calendar)
    (now : Timestamp) (h : keyWF c) : keyWF (removeFromCalendar now ids c) :=
  fun p hp => h p (mem_items_removeFromCalendar ids c now p hp)

theorem keyWF_moveToCalendar (its : List Item) (c : Calendar)
    (h : keyWF c) : keyWF (moveToCalendar its c) := by
  intro p hp
  rcases mem_items_moveToCalendar its c p hp with h1 | h1
  · exact h p h1
  · exact h1.2.symm

theorem mem_getItemsModifiedSince_sub (c : Calendar) (w : Option Timestamp)
    (p : ItemId × Item) (h : p ∈ c.getItemsModifiedSince w) : p ∈ c.items := by
  cases w with
  | none => exact h
  | some d => exact (List.mem_filter.mp h).1

theorem mem_getItemsDeletedSince (c : Calendar) (d : Timestamp) (i : ItemId) :
    i ∈ c.getItemsDeletedSince d ↔ ∃ t, (i, t) ∈ c.deletions ∧ d < t := by
  unfold Calendar.getItemsDeletedSince
  constructor
  · intro h
    obtain ⟨q, hq, hqi⟩ := List.mem_map.mp h
    rw [List.mem_filter] at hq
    rcases q with ⟨qi, qt⟩
    cases hqi
    exact ⟨qt, hq.1, by simpa using hq.2⟩
  · rintro ⟨t, ht, hdt⟩
    refine List.mem_map.mpr ⟨(i, t), List.mem_filter.mpr ⟨ht, by simpa⟩, rfl⟩

/-! ## Lemmas about one calendar pair's merge -/

theorem mem_serverMod_sub (w : Option Timestamp) (S : Calendar)
    (p : ItemId × Item) (h : p ∈ serverModOf w S) : p ∈ S.items :=
  mem_getItemsModifiedSince_sub S w p h

theorem serverMod_snd_id (w : Option Timestamp) (S : Calendar) (hkS : keyWF S) :
    ∀ p ∈ serverModOf w S, p.2.id = p.1 :=
  fun p hp => hkS p (mem_serverMod_sub w S p hp)

theorem serverMod_map_fst_sublist (w : Option Timestamp) (S : Calendar) :
    ((serverModOf w S).map Prod.fst).Sublist (S.items.map Prod.fst) := by
  cases w with
  | none => exact List.Sublist.refl _
  | some d => exact (List.filter_sublist _).map Prod.fst

theorem serverMod_ids_eq (w : Option Timestamp) (S : Calendar) (hkS : keyWF S) :
    ((serverModOf w S).map Prod.snd).map Item.id =
      (serverModOf w S).map Prod.fst := by
  rw [List.map_map]
  exact List.map_congr_left (fun p hp => serverMod_snd_id w S hkS p hp)

theorem getItem_localAfterPull (now : Timestamp) (w : Option Timestamp)
    (S L : Calendar) (j : ItemId) :
    (localAfterPull now w S L).getItem j =
      if j ∈ localRemovals w S L then none else L.getItem j :=
  getItem_removeFromCalendar _ L now j

theorem deletions_localAfterPull (now : Timestamp) (w : Option Timestamp)
    (S L : Calendar) :
    (localAfterPull now w S L).deletions =
      L.deletions ++ (localRemovals w S L).map (fun i => (i, now)) :=
  deletions_removeFromCalendar _ L now

theorem keyWF_localAfterPull (now : Timestamp) (w : Option Timestamp)
    (S L : Calendar) (hkL : keyWF L) : keyWF (localAfterPull now w S L) :=
  keyWF_removeFromCalendar _ L now hkL

theorem mem_localMod_sub (now : Timestamp) (w : Option Timestamp)
    (S L : Calendar) (p : ItemId × Item) (h : p ∈ localModOf now w S L) :
    p ∈ L.items :=
  mem_items_removeFromCalendar _ L now p
    (mem_getItemsModifiedSince_sub _ w p (List.mem_filter.mp h).1)

theorem localMod_not_serverMod (now : Timestamp) (w : Option Timestamp)
    (S L : Calendar) (p : ItemId × Item) (h : p ∈ localModOf now w S L) :
    ∀ q ∈ serverModOf w S, q.1 ≠ p.1 := by
  have h2 : (serverModOf w S).any (fun q => q.1 == p.1) = false := by
    simpa using (List.mem_filter.mp h).2
  rw [List.any_eq_false] at h2
  intro q hq he
  exact h2 q hq (by simp [he])

theorem serverRemovals_not_serverMod (now : Timestamp) (w : Option Timestamp)
    (S L : Calendar) (i : ItemId) (h : i ∈ serverRemovals now w S L) :
    ∀ q ∈ serverModOf w S, q.1 ≠ i := by
  have h2 : (serverModOf w S).any (fun q => q.1 == i) = false := by
    simpa using (List.mem_filter.mp h).2
  rw [List.any_eq_false] at h2
  intro q hq he
  exact h2 q hq (by simp [he])

theorem localModSnd_id_ne (now : Timestamp) (w : Option Timestamp)
    (S L : Calendar) (hkL : keyWF L) (i : ItemId)
    (hany : ∃ q ∈ serverModOf w S, q.1 = i) :
    ∀ x ∈ (localModOf now w S L).map Prod.snd, x.id ≠ i := by
  rintro x hx hxi
  obtain ⟨p, hp, hpx⟩ := List.mem_map.mp hx
  obtain ⟨q, hq, hqi⟩ := hany
  have hpid : x.id = p.1 := by
    rw [← hpx]
    exact hkL p (mem_localMod_sub now w S L p hp)
  exact localMod_not_serverMod now w S L p hp q hq (by rw [hqi, ← hxi, hpid])

/-- The server side of the merge leaves untouched every id the server
modified since the watermark: the push phase filters out all conflicting
local deletions and local modifications. -/
theorem syncPair_server_getItem_of_mod (now : Timestamp) (w : Option Timestamp)
    (S L : Calendar) (i : ItemId) (hkL : keyWF L)
    (hany : ∃ q ∈ serverModOf w S, q.1 = i) :
    (syncCalendarPair now w S L).1.getItem i = S.getItem i := by
  show (moveToCalendar _ _).getItem i = _
  rw [getItem_moveToCalendar_notMem _ _ i
    (localModSnd_id_ne now w S L hkL i hany)]
  rw [getItem_removeFromCalendar]
  rw [if_neg]
  intro hmem
  obtain ⟨q, hq, hqi⟩ := hany
  exact serverRemovals_not_serverMod now w S L i hmem q hq hqi

/-- The local side of the merge stores exactly the server's version of every
id the server modified since the watermark. -/
theorem syncPair_local_getItem_of_mod (now : Timestamp) (w : Option Timestamp)
    (S L : Calendar) (i : ItemId) (sIt : Item)
    (hndS : S.getItemIds.Nodup) (hkS : keyWF S)
    (hm : (i, sIt) ∈ serverModOf w S) :
    (syncCalendarPair now w S L).2.getItem i = some sIt := by
  have hid : sIt.id = i := serverMod_snd_id w S hkS (i, sIt) hm
  have hnd2 : (((serverModOf w S).map Prod.snd).map Item.id).Nodup := by
    rw [serverMod_ids_eq w S hkS]
    exact (serverMod_map_fst_sublist w S).nodup hndS
  have hmem : sIt ∈ (serverModOf w S).map Prod.snd :=
    List.mem_map_of_mem Prod.snd hm
  show (moveToCalendar _ _).getItem i = _
  rw [← hid]
  exact getItem_moveToCalendar_mem _ _ sIt hnd2 hmem

/-- A local deletion that does not collide with a server modification is
pushed: the id ends up absent from the server calendar. -/
theorem syncPair_local_deletion_propagated (now d : Timestamp) (S L : Calendar)
    (i : ItemId) (t : Timestamp)
    (hdel : (i, t) ∈ L.deletions) (ht : d < t)
    (hnm : ∀ q ∈ serverModOf (some d) S, q.1 ≠ i)
    (hni : ∀ p ∈ L.items, p.1 ≠ i) (hkL : keyWF L) :
    (syncCalendarPair now (some d) S L).1.getItem i = none := by
  have hnotpush : ∀ x ∈ (localModOf now (some d) S L).map Prod.snd,
      x.id ≠ i := by
    rintro x hx hxi
    obtain ⟨p, hp, rfl⟩ := List.mem_map.mp hx
    have hpl : p ∈ L.items := mem_localMod_sub now (some d) S L p hp
    exact hni p hpl (by rw [← hkL p hpl, hxi])
  have hmem : i ∈ serverRemovals now (some d) S L := by
    apply List.mem_filter.mpr
    constructor
    · show i ∈ (localAfterPull now (some d) S L).getItemsDeletedSince d
      rw [mem_getItemsDeletedSince]
      refine ⟨t, ?_, ht⟩
      rw [deletions_localAfterPull]
      exact List.mem_append_left _ hdel
    · have hany : (serverModOf (some d) S).any (fun q => q.1 == i) = false :=
        List.any_eq_false.mpr (fun q hq hqi => hnm q hq (by simpa using hqi))
      simp [hany]
  show (moveToCalendar _ _).getItem i = _
  rw [getItem_moveToCalendar_notMem _ _ i hnotpush,
    getItem_removeFromCalendar, if_pos hmem]

/-- An id present locally but absent from the server is deleted locally by a
watermarked pass. -/
theorem syncPair_remote_deletion_propagated (now d : Timestamp)
    (S L : Calendar) (i : ItemId) (hin : i ∈ L.getItemIds)
    (habs : ∀ p ∈ S.items, p.1 ≠ i) (hkS : keyWF S) :
    (syncCalendarPair now (some d) S L).2.getItem i = none := by
  have hnotpull : ∀ x ∈ (serverModOf (some d) S).map Prod.snd, x.id ≠ i := by
    rintro x hx hxi
    obtain ⟨p, hp, rfl⟩ := List.mem_map.mp hx
    have hps : p ∈ S.items := mem_serverMod_sub (some d) S p hp
    exact habs p hps (by rw [← hkS p hps, hxi])
  have hmem : i ∈ localRemovals (some d) S L := by
    apply List.mem_append_left
    show i ∈ S.findDeletionsFrom L.getItemIds
    apply List.mem_filter.mpr
    refine ⟨hin, ?_⟩
    have hany : S.items.any (fun p => p.1 == i) = false :=
      List.any_eq_false.mpr (fun p hp hpi => habs p hp (by simpa using hpi))
    simp [hany]
  show (moveToCalendar _ _).getItem i = _
  rw [getItem_moveToCalendar_notMem _ _ i hnotpull, getItem_localAfterPull,
    if_pos hmem]

/-- On a first sync (no watermark) no deletion at all is pushed to the
server. -/
theorem syncPair_first_sync_no_server_removals (now : Timestamp)
    (S L : Calendar) : serverRemovals now none S L = [] := rfl

/-- On a first sync (no watermark) a local item absent from the server is
left untouched in the local calendar. -/
theorem syncPair_first_sync_local_preserved (now : Timestamp) (S L : Calendar)
    (hkS : keyWF S) (i : ItemId) (habs : ∀ p ∈ S.items, p.1 ≠ i) :
    (syncCalendarPair now none S L).2.getItem i = L.getItem i := by
  have hnotpull : ∀ x ∈ (serverModOf none S).map Prod.snd, x.id ≠ i := by
    rintro x hx hxi
    obtain ⟨p, hp, rfl⟩ := List.mem_map.mp hx
    have hps : p ∈ S.items := mem_serverMod_sub none S p hp
    exact habs p hps (by rw [← hkS p hps, hxi])
  have hnmem : i ∉ localRemovals none S L := by
    intro hmem
    rcases List.mem_append.mp hmem with h1 | h1
    · simp [remoteDeletions] at h1
    · obtain ⟨p, hp, hpi⟩ := List.mem_map.mp h1
      exact habs p (mem_serverMod_sub none S p hp) hpi
  show (moveToCalendar _ _).getItem i = _
  rw [getItem_moveToCalendar_notMem _ _ i hnotpull, getItem_localAfterPull,
    if_neg hnmem]

/-- A pass all of whose diff queries come back empty leaves both calendars
exactly as they were. -/
theorem syncPair_noop (now d : Timestamp) (S L : Calendar)
    (h1 : S.getItemsModifiedSince (some d) = [])
    (h2 : L.getItemsModifiedSince (some d) = [])
    (h3 : L.getItemsDeletedSince d = [])
    (h4 : S.findDeletionsFrom L.getItemIds = []) :
    syncCalendarPair now (some d) S L = (S, L) := by
  have hM : serverModOf (some d) S = [] := h1
  have hR : localRemovals (some d) S L = [] := by
    show S.findDeletionsFrom L.getItemIds ++
      (serverModOf (some d) S).map Prod.fst = []
    rw [h4, hM]
    rfl
  have hLp : localAfterPull now (some d) S L = L := by
    unfold localAfterPull
    rw [hR]
    rfl
  have hD : localDelOf now (some d) S L = [] := by
    show (localAfterPull now (some d) S L).getItemsDeletedSince d = []
    rw [hLp, h3]
  have hSR : serverRemovals now (some d) S L = [] := by
    unfold serverRemovals
    rw [hD]
    rfl
  have hLM : localModOf now (some d) S L = [] := by
    unfold localModOf
    rw [hLp, h2]
    rfl
  show (moveToCalendar _ _, moveToCalendar _ _) = (S, L)
  rw [hSR, hLM, hM, hLp]
  rfl

theorem timesLE_syncPair_server (now : Timestamp) (w : Option Timestamp)
    (S L : Calendar) (htS : timesLE S now) (htL : timesLE L now) :
    timesLE (syncCalendarPair now w S L).1 now := by
  constructor
  · intro p hp
    rcases mem_items_moveToCalendar _ _ p hp with h1 | h1
    · exact htS.1 p (mem_items_removeFromCalendar _ S now p h1)
    · obtain ⟨q, hq, hqp⟩ := List.mem_map.mp h1.1
      have hle := htL.1 q (mem_localMod_sub now w S L q hq)
      rw [hqp] at hle
      exact hle
  · intro q hq
    have hq2 : q ∈ (removeFromCalendar now (serverRemovals now w S L)
        S).deletions := by
      rw [← deletions_moveToCalendar ((localModOf now w S L).map Prod.snd)]
      exact hq
    rw [deletions_removeFromCalendar] at hq2
    rcases List.mem_append.mp hq2 with h1 | h1
    · exact htS.2 q h1
    · obtain ⟨x, hx, hxq⟩ := List.mem_map.mp h1
      rw [← hxq]

theorem timesLE_syncPair_local (now : Timestamp) (w : Option Timestamp)
    (S L : Calendar) (htS : timesLE S now) (htL : timesLE L now) :
    timesLE (syncCalendarPair now w S L).2 now := by
  constructor
  · intro p hp
    rcases mem_items_moveToCalendar _ _ p hp with h1 | h1
    · exact htL.1 p
        (mem_items_removeFromCalendar _ L now p h1)
    · obtain ⟨q, hq, hqp⟩ := List.mem_map.mp h1.1
      have hle := htS.1 q (mem_serverMod_sub w S q hq)
      rw [hqp] at hle
      exact hle
  · intro q hq
    have hq2 : q ∈ (localAfterPull now w S L).deletions := by
      rw [← deletions_moveToCalendar ((serverModOf w S).map Prod.snd)]
      exact hq
    rw [deletions_localAfterPull] at hq2
    rcases List.mem_append.mp hq2 with h1 | h1
    · exact htL.2 q h1
    · obtain ⟨x, hx, hxq⟩ := List.mem_map.mp h1
      rw [← hxq]

theorem keyWF_syncPair_server (now : Timestamp) (w : Option Timestamp)
    (S L : Calendar) (hkS : keyWF S) :
    keyWF (syncCalendarPair now w S L).1 :=
  keyWF_moveToCalendar _ _ (keyWF_removeFromCalendar _ S now hkS)

theorem keyWF_syncPair_local (now : Timestamp) (w : Option Timestamp)
    (S L : Calendar) (hkL : keyWF L) :
    keyWF (syncCalendarPair now w S L).2 :=
  keyWF_moveToCalendar _ _ (keyWF_localAfterPull now w S L hkL)

/-- After a pass, every id present in the local calendar is present on the
server: unmatched local ids were either pulled away as remote deletions or
pushed to the server as new local modifications. -/
theorem syncPair_ids_subset (now : Timestamp) (w : Option Timestamp)
    (S L : Calendar) (hkS : keyWF S) (hkL : keyWF L) (hdc : delConsistent L) :
    ∀ j, (syncCalendarPair now w S L).2.getItem j ≠ none →
      (syncCalendarPair now w S L).1.getItem j ≠ none := by
  intro j hj
  have hj2 : (moveToCalendar ((serverModOf w S).map Prod.snd)
      (localAfterPull now w S L)).getItem j ≠ none := hj
  rw [getItem_moveToCalendar_ne_none] at hj2
  show (moveToCalendar ((localModOf now w S L).map Prod.snd)
    (removeFromCalendar now (serverRemovals now w S L) S)).getItem j ≠ none
  rw [getItem_moveToCalendar_ne_none]
  rcases hj2 with ⟨x, hx, hxj⟩ | hj2
  · obtain ⟨p, hp, rfl⟩ := List.mem_map.mp hx
    have hpx : p.2.id = p.1 := serverMod_snd_id w S hkS p hp
    have hpj : p.1 = j := by rw [← hpx, hxj]
    right
    have hnSR : j ∉ serverRemovals now w S L := fun hmem =>
      serverRemovals_not_serverMod now w S L j hmem p hp hpj
    rw [getItem_removeFromCalendar, if_neg hnSR, getItem_ne_none_iff]
    exact hpj ▸ List.mem_map_of_mem Prod.fst (mem_serverMod_sub w S p hp)
  · rw [getItem_localAfterPull] at hj2
    by_cases hrem : j ∈ localRemovals w S L
    · rw [if_pos hrem] at hj2
      exact absurd rfl hj2
    · rw [if_neg hrem] at hj2
      have hjL : j ∈ L.getItemIds := (getItem_ne_none_iff L j).mp hj2
      have hjnotM : j ∉ (serverModOf w S).map Prod.fst := fun hmm =>
        hrem (List.mem_append_right _ hmm)
      cases w with
      | none =>
        left
        have hL'j : (localAfterPull now none S L).getItem j ≠ none := by
          rw [getItem_localAfterPull, if_neg hrem]
          exact hj2
        have hjL2 : j ∈ (localAfterPull now none S L).getItemIds :=
          (getItem_ne_none_iff _ j).mp hL'j
        obtain ⟨p, hp, hpj⟩ := List.mem_map.mp hjL2
        have hpM : p ∈ localModOf now none S L := by
          apply List.mem_filter.mpr
          refine ⟨hp, ?_⟩
          have hany : (serverModOf none S).any (fun q => q.1 == p.1) =
              false := by
            apply List.any_eq_false.mpr
            rintro q hq hqe
            apply hjnotM
            have hq1 : q.1 = p.1 := by simpa using hqe
            rw [← hpj, ← hq1]
            exact List.mem_map_of_mem Prod.fst hq
          simp [hany]
        refine ⟨p.2, List.mem_map_of_mem Prod.snd hpM, ?_⟩
        rw [keyWF_localAfterPull now none S L hkL p hp, hpj]
      | some d =>
        right
        have hjS : j ∈ S.getItemIds := by
          by_contra hns
          apply hrem
          apply List.mem_append_left
          show j ∈ S.findDeletionsFrom L.getItemIds
          apply List.mem_filter.mpr
          refine ⟨hjL, ?_⟩
          have hany : S.items.any (fun p => p.1 == j) = false := by
            apply List.any_eq_false.mpr
            rintro p hp hpe
            apply hns
            have hp1 : p.1 = j := by simpa using hpe
            exact hp1 ▸ List.mem_map_of_mem Prod.fst hp
          simp [hany]
        have hnSR : j ∉ serverRemovals now (some d) S L := by
          intro hSR
          have hD : j ∈ localDelOf now (some d) S L :=
            (List.mem_filter.mp hSR).1
          have hD2 : j ∈ (localAfterPull now (some d) S
              L).getItemsDeletedSince d := hD
          rw [mem_getItemsDeletedSince] at hD2
          obtain ⟨t, htmem, htd⟩ := hD2
          rw [deletions_localAfterPull] at htmem
          rcases List.mem_append.mp htmem with h1 | h1
          · obtain ⟨p, hp, hpj⟩ := List.mem_map.mp hjL
            exact hdc (j, t) h1 p hp hpj
          · obtain ⟨x, hx, hxq⟩ := List.mem_map.mp h1
            have hxj : x = j := congrArg Prod.fst hxq
            exact hrem (hxj ▸ hx)
        rw [getItem_removeFromCalendar, if_neg hnSR, getItem_ne_none_iff]
        exact hjS

theorem getItemsModifiedSince_eq_nil (c : Calendar) (d : Timestamp)
    (h : ∀ p ∈ c.items, p.2.lastModified ≤ d) :
    c.getItemsModifiedSince (some d) = [] := by
  unfold Calendar.getItemsModifiedSince
  rw [List.filter_eq_nil_iff]
  intro p hp
  simp only [decide_eq_true_eq]
  exact Nat.not_lt.mpr (h p hp)

theorem getItemsDeletedSince_eq_nil (c : Calendar) (d : Timestamp)
    (h : ∀ q ∈ c.deletions, q.2 ≤ d) :
    c.getItemsDeletedSince d = [] := by
  unfold Calendar.getItemsDeletedSince
  have hf : c.deletions.filter (fun p => decide (d < p.2)) = [] := by
    rw [List.filter_eq_nil_iff]
    intro q hq
    simp only [decide_eq_true_eq]
    exact Nat.not_lt.mpr (h q hq)
  rw [hf]
  rfl

theorem findDeletionsFrom_eq_nil (S : Calendar) (ids : List ItemId)
    (h : ∀ j ∈ ids, j ∈ S.getItemIds) :
    S.findDeletionsFrom ids = [] := by
  unfold Calendar.findDeletionsFrom
  apply List.filter_eq_nil_iff.mpr
  intro j hj
  have hany : S.items.any (fun p => p.1 == j) = true :=
    (any_fst_iff _ j).mpr (h j hj)
  simp [hany]

/-- Running the pair merge again, against the watermark set by a first run
whose inputs were well-formed, changes nothing. -/
theorem syncPair_then_noop (now1 now2 : Timestamp) (w : Option Timestamp)
    (S L : Calendar) (hkS : keyWF S) (hkL : keyWF L)
    (htS : timesLE S now1) (htL : timesLE L now1) (hdc : delConsistent L) :
    syncCalendarPair now2 (some now1) (syncCalendarPair now1 w S L).1
      (syncCalendarPair now1 w S L).2 =
      ((syncCalendarPair now1 w S L).1, (syncCalendarPair now1 w S L).2) := by
  apply syncPair_noop
  · exact getItemsModifiedSince_eq_nil _ now1
      (timesLE_syncPair_server now1 w S L htS htL).1
  · exact getItemsModifiedSince_eq_nil _ now1
      (timesLE_syncPair_local now1 w S L htS htL).1
  · exact getItemsDeletedSince_eq_nil _ now1
      (timesLE_syncPair_local now1 w S L htS htL).2
  · apply findDeletionsFrom_eq_nil
    intro j hjmem
    have h1 : (syncCalendarPair now1 w S L).2.getItem j ≠ none :=
      (getItem_ne_none_iff _ j).mpr hjmem
    have h2 := syncPair_ids_subset now1 w S L hkS hkL hdc j h1
    exact (getItem_ne_none_iff _ j).mp h2

/-! ## Lemmas about the calendar loop of `Provider::sync` -/

theorem find?_fst_of_mem_nodup {α : Type} (l : List (Nat × α)) (q : Nat × α)
    (hnd : (l.map Prod.fst).Nodup) (h : q ∈ l) :
    l.find? (fun p => p.1 == q.1) = some q := by
  induction l with
  | nil => simp at h
  | cons p t ih =>
    simp only [List.map_cons, List.nodup_cons] at hnd
    rcases List.mem_cons.mp h with h1 | h1
    · rw [h1, List.find?_cons]
      simp
    · have hpq : (p.1 == q.1) = false := by
        simp only [beq_eq_false_iff_ne, ne_eq]
        intro hpq
        exact hnd.1 (by rw [hpq]; exact List.mem_map_of_mem Prod.fst h1)
      rw [List.find?_cons, hpq]
      exact ih hnd.2 h1

theorem eq_of_mem_mem_key_nodup {α : Type} (l : List (Nat × α))
    (p q : Nat × α) (hnd : (l.map Prod.fst).Nodup) (hp : p ∈ l) (hq : q ∈ l)
    (hk : p.1 = q.1) : p = q := by
  have h1 := find?_fst_of_mem_nodup l p hnd hp
  have h2 := find?_fst_of_mem_nodup l q hnd hq
  rw [hk, h2] at h1
  exact (Option.some.inj h1).symm

theorem find?_key_shape {α : Type} (l : List (Nat × α)) (j : Nat)
    (q : Nat × α) (h : l.find? (fun p => p.1 == j) = some q) : q.1 = j := by
  have := List.find?_some h
  simpa using this

theorem map_fst_updateCal (l : List (CalendarId × Calendar)) (id : CalendarId)
    (c : Calendar) : (updateCal l id c).map Prod.fst = l.map Prod.fst := by
  unfold updateCal
  rw [List.map_map]
  apply List.map_congr_left
  intro p hp
  by_cases h : p.1 = id
  · simp [h]
  · simp [h]

theorem find?_updateCal_ne (l : List (CalendarId × Calendar))
    (id : CalendarId) (c : Calendar) (j : CalendarId) (hj : j ≠ id) :
    (updateCal l id c).find? (fun p => p.1 == j) =
      l.find? (fun p => p.1 == j) := by
  induction l with
  | nil => rfl
  | cons p t ih =>
    show ((if p.1 = id then (id, c) else p) :: updateCal t id c).find? _ = _
    by_cases h : p.1 = id
    · have h1 : (((id, c) : CalendarId × Calendar).1 == j) = false := by
        simp [Ne.symm hj]
      have h2 : (p.1 == j) = false := by simp [h, Ne.symm hj]
      rw [if_pos h, List.find?_cons, List.find?_cons, h1, h2]
      exact ih
    · rw [if_neg h]
      by_cases h2 : p.1 = j
      · rw [List.find?_cons, List.find?_cons, show (p.1 == j) = true by
          simp [h2]]
      · rw [List.find?_cons, List.find?_cons, show (p.1 == j) = false by
          simp [h2]]
        exact ih

theorem find?_updateCal_self (l : List (CalendarId × Calendar))
    (id : CalendarId) (c : Calendar)
    (h : ∃ q, l.find? (fun p => p.1 == id) = some q) :
    (updateCal l id c).find? (fun p => p.1 == id) = some (id, c) := by
  induction l with
  | nil =>
    obtain ⟨q, hq⟩ := h
    simp at hq
  | cons p t ih =>
    show ((if p.1 = id then (id, c) else p) :: updateCal t id c).find? _ = _
    by_cases hp : p.1 = id
    · rw [if_pos hp, List.find?_cons,
        show (((id, c) : CalendarId × Calendar).1 == id) = true by simp]
    · rw [if_neg hp, List.find?_cons, show (p.1 == id) = false by simp [hp]]
      apply ih
      obtain ⟨q, hq⟩ := h
      rw [List.find?_cons, show (p.1 == id) = false by simp [hp]] at hq
      exact ⟨q, hq⟩

theorem updateCal_eq_self (l : List (CalendarId × Calendar))
    (id : CalendarId) (c : Calendar) (hnd : (l.map Prod.fst).Nodup)
    (h : (id, c) ∈ l) : updateCal l id c = l := by
  unfold updateCal
  have hcong : ∀ p ∈ l,
      (if p.1 = id then ((id, c) : CalendarId × Calendar) else p) = p := by
    intro p hp
    by_cases hpid : p.1 = id
    · rw [if_pos hpid]
      exact (eq_of_mem_mem_key_nodup l p (id, c) hnd hp h hpid).symm
    · rw [if_neg hpid]
  rw [List.map_congr_left hcong]
  simp

theorem syncLoop_cons_none (now : Timestamp) (w : Option Timestamp)
    (id : CalendarId) (cS : Calendar) (rest : List (CalendarId × Calendar))
    (lc : List (CalendarId × Calendar))
    (h : lc.find? (fun p => p.1 == id) = none) :
    syncLoop now w ((id, cS) :: rest) lc =
      ((id, cS) :: (syncLoop now w rest lc).1, (syncLoop now w rest lc).2) := by
  simp only [syncLoop, h]

theorem syncLoop_cons_some (now : Timestamp) (w : Option Timestamp)
    (id : CalendarId) (cS : Calendar) (rest : List (CalendarId × Calendar))
    (lc : List (CalendarId × Calendar)) (found : CalendarId × Calendar)
    (h : lc.find? (fun p => p.1 == id) = some found) :
    syncLoop now w ((id, cS) :: rest) lc =
      ((id, (syncCalendarPair now w cS found.2).1) ::
        (syncLoop now w rest
          (updateCal lc id (syncCalendarPair now w cS found.2).2)).1,
       (syncLoop now w rest
          (updateCal lc id (syncCalendarPair now w cS found.2).2)).2) := by
  simp only [syncLoop, h]

theorem syncLoop_server_map_fst (now : Timestamp) (w : Option Timestamp)
    (sc lc : List (CalendarId × Calendar)) :
    (syncLoop now w sc lc).1.map Prod.fst = sc.map Prod.fst := by
  induction sc generalizing lc with
  | nil => rfl
  | cons p rest ih =>
    rcases p with ⟨pid, cS⟩
    cases hf : lc.find? (fun q => q.1 == pid) with
    | none =>
      rw [syncLoop_cons_none now w pid cS rest lc hf]
      simp [ih]
    | some found =>
      rw [syncLoop_cons_some now w pid cS rest lc found hf]
      simp [ih]

theorem syncLoop_local_map_fst (now : Timestamp) (w : Option Timestamp)
    (sc lc : List (CalendarId × Calendar)) :
    (syncLoop now w sc lc).2.map Prod.fst = lc.map Prod.fst := by
  induction sc generalizing lc with
  | nil => rfl
  | cons p rest ih =>
    rcases p with ⟨pid, cS⟩
    cases hf : lc.find? (fun q => q.1 == pid) with
    | none =>
      rw [syncLoop_cons_none now w pid cS rest lc hf]
      exact ih lc
    | some found =>
      rw [syncLoop_cons_some now w pid cS rest lc found hf]
      rw [ih, map_fst_updateCal]

theorem syncLoop_local_find_notin (now : Timestamp) (w : Option Timestamp)
    (sc lc : List (CalendarId × Calendar)) (id : CalendarId)
    (h : id ∉ sc.map Prod.fst) :
    (syncLoop now w sc lc).2.find? (fun p => p.1 == id) =
      lc.find? (fun p => p.1 == id) := by
  induction sc generalizing lc with
  | nil => rfl
  | cons p rest ih =>
    rcases p with ⟨pid, cS⟩
    simp only [List.map_cons, List.mem_cons] at h
    push_neg at h
    cases hf : lc.find? (fun q => q.1 == pid) with
    | none =>
      rw [syncLoop_cons_none now w pid cS rest lc hf]
      exact ih lc h.2
    | some found =>
      rw [syncLoop_cons_some now w pid cS rest lc found hf]
      rw [ih _ h.2, find?_updateCal_ne lc pid _ id h.1]

theorem syncLoop_find (now : Timestamp) (w : Option Timestamp)
    (sc lc : List (CalendarId × Calendar)) (id : CalendarId) (S L : Calendar)
    (hnd : (sc.map Prod.fst).Nodup)
    (hS : sc.find? (fun p => p.1 == id) = some (id, S))
    (hL : lc.find? (fun p => p.1 == id) = some (id, L)) :
    (syncLoop now w sc lc).1.find? (fun p => p.1 == id) =
      some (id, (syncCalendarPair now w S L).1) ∧
    (syncLoop now w sc lc).2.find? (fun p => p.1 == id) =
      some (id, (syncCalendarPair now w S L).2) := by
  induction sc generalizing lc with
  | nil => simp at hS
  | cons p rest ih =>
    rcases p with ⟨pid, cS⟩
    simp only [List.map_cons, List.nodup_cons] at hnd
    by_cases hpe : pid = id
    · subst hpe
      have hcS : cS = S := by
        rw [List.find?_cons,
          show (((pid, cS) : CalendarId × Calendar).1 == pid) = true by simp]
          at hS
        have := Option.some.inj hS
        exact congrArg Prod.snd this
      subst hcS
      rw [syncLoop_cons_some now w pid cS rest lc (pid, L) hL]
      constructor
      · rw [List.find?_cons,
          show (((pid, (syncCalendarPair now w cS ((pid, L) :
            CalendarId × Calendar).2).1) : CalendarId × Calendar).1 == pid) =
            true by simp]
      · rw [syncLoop_local_find_notin now w rest _ pid hnd.1]
        exact find?_updateCal_self lc pid _ ⟨(pid, L), hL⟩
    · have hS2 : rest.find? (fun p => p.1 == id) = some (id, S) := by
        rw [List.find?_cons,
          show (((pid, cS) : CalendarId × Calendar).1 == id) = false by
            simp [hpe]] at hS
        exact hS
      cases hf : lc.find? (fun q => q.1 == pid) with
      | none =>
        rw [syncLoop_cons_none now w pid cS rest lc hf]
        obtain ⟨h1, h2⟩ := ih lc hnd.2 hS2 hL
        constructor
        · rw [List.find?_cons,
            show (((pid, cS) : CalendarId × Calendar).1 == id) = false by
              simp [hpe]]
          exact h1
        · exact h2
      | some found =>
        rw [syncLoop_cons_some now w pid cS rest lc found hf]
        have hL2 : (updateCal lc pid
            (syncCalendarPair now w cS found.2).2).find?
            (fun p => p.1 == id) = some (id, L) := by
          rw [find?_updateCal_ne lc pid _ id (fun he => hpe he.symm)]
          exact hL
        obtain ⟨h1, h2⟩ := ih _ hnd.2 hS2 hL2
        constructor
        · rw [List.find?_cons,
            show (((pid, (syncCalendarPair now w cS found.2).1) :
              CalendarId × Calendar).1 == id) = false by simp [hpe]]
          exact h1
        · exact h2

theorem syncLoop_skip (now : Timestamp) (w : Option Timestamp)
    (sc lc : List (CalendarId × Calendar)) (id : CalendarId)
    (hnone : lc.find? (fun p => p.1 == id) = none) :
    (syncLoop now w sc lc).1.find? (fun p => p.1 == id) =
      sc.find? (fun p => p.1 == id) ∧
    (syncLoop now w sc lc).2.find? (fun p => p.1 == id) = none := by
  induction sc generalizing lc with
  | nil => exact ⟨rfl, hnone⟩
  | cons p rest ih =>
    rcases p with ⟨pid, cS⟩
    by_cases hpe : pid = id
    · subst hpe
      rw [syncLoop_cons_none now w pid cS rest lc hnone]
      obtain ⟨h1, h2⟩ := ih lc hnone
      constructor
      · rw [List.find?_cons, List.find?_cons,
          show (((pid, cS) : CalendarId × Calendar).1 == pid) = true by simp]
      · exact h2
    · cases hf : lc.find? (fun q => q.1 == pid) with
      | none =>
        rw [syncLoop_cons_none now w pid cS rest lc hf]
        obtain ⟨h1, h2⟩ := ih lc hnone
        constructor
        · rw [List.find?_cons, List.find?_cons,
            show (((pid, cS) : CalendarId × Calendar).1 == id) = false by
              simp [hpe]]
          exact h1
        · exact h2
      | some found =>
        rw [syncLoop_cons_some now w pid cS rest lc found hf]
        have hnone2 : (updateCal lc pid
            (syncCalendarPair now w cS found.2).2).find?
            (fun p => p.1 == id) = none := by
          rw [find?_updateCal_ne lc pid _ id (fun he => hpe he.symm)]
          exact hnone
        obtain ⟨h1, h2⟩ := ih _ hnone2
        constructor
        · rw [List.find?_cons, List.find?_cons,
            show (((pid, cS) : CalendarId × Calendar).1 == id) = false by
              simp [hpe]]
          exact h1
        · exact h2

theorem syncLoop_id (now : Timestamp) (w : Option Timestamp)
    (sc lc : List (CalendarId × Calendar))
    (H : ∀ p ∈ sc, ∀ q, lc.find? (fun x => x.1 == p.1) = some q →
      syncCalendarPair now w p.2 q.2 = (p.2, q.2) ∧
      updateCal lc p.1 q.2 = lc) :
    syncLoop now w sc lc = (sc, lc) := by
  induction sc with
  | nil => rfl
  | cons p rest ih =>
    rcases p with ⟨pid, cS⟩
    cases hf : lc.find? (fun q => q.1 == pid) with
    | none =>
      rw [syncLoop_cons_none now w pid cS rest lc hf,
        ih (fun p hp => H p (List.mem_cons_of_mem _ hp))]
    | some found =>
      obtain ⟨hpair, hupd⟩ := H (pid, cS) (List.mem_cons_self _ _) found hf
      rw [syncLoop_cons_some now w pid cS rest lc found hf, hpair]
      show ((pid, cS) :: (syncLoop now w rest (updateCal lc pid found.2)).1,
        (syncLoop now w rest (updateCal lc pid found.2)).2) = _
      rw [hupd, ih (fun p hp => H p (List.mem_cons_of_mem _ hp))]

theorem sync_true_eq (now : Timestamp) (st : ProviderState) :
    sync true now st = some
      { serverCals := (syncLoop now st.lastSync st.serverCals st.localCals).1,
        localCals := (syncLoop now st.lastSync st.serverCals st.localCals).2,
        lastSync := some now } := rfl

theorem sync_true_inv (now : Timestamp) (st st2 : ProviderState)
    (h : sync true now st = some st2) :
    st2 =
      { serverCals := (syncLoop now st.lastSync st.serverCals st.localCals).1,
        localCals := (syncLoop now st.lastSync st.serverCals st.localCals).2,
        lastSync := some now } := by
  rw [sync_true_eq] at h
  exact (Option.some.inj h).symm

/-! ### Claims about the sync orchestrator -/

/-- C1: when the server modified an id since the watermark and the same id
was also modified or deleted locally since the watermark, a successful sync
leaves the server's version of that item on both calendars: the server entry
equals the pre-sync server item and the local entry receives that very item;
the local edit or deletion is never pushed. -/
theorem claim_C1 (st st2 : ProviderState) (now : Timestamp) (id : CalendarId)
    (S L : Calendar) (i : ItemId) (sIt : Item)
    (hnd : (st.serverCals.map Prod.fst).Nodup)
    (hS : st.serverCals.find? (fun p => p.1 == id) = some (id, S))
    (hL : st.localCals.find? (fun p => p.1 == id) = some (id, L))
    (hndS : S.getItemIds.Nodup) (hkS : keyWF S) (hkL : keyWF L)
    (hm : (i, sIt) ∈ serverModOf st.lastSync S)
    (_hlocal : i ∈ (L.getItemsModifiedSince st.lastSync).map Prod.fst ∨
      (∃ d, st.lastSync = some d ∧ i ∈ L.getItemsDeletedSince d))
    (hrun : sync true now st = some st2) :
    st2.serverCals.find? (fun p => p.1 == id) =
      some (id, (syncCalendarPair now st.lastSync S L).1) ∧
    st2.localCals.find? (fun p => p.1 == id) =
      some (id, (syncCalendarPair now st.lastSync S L).2) ∧
    S.getItem i = some sIt ∧
    (syncCalendarPair now st.lastSync S L).1.getItem i = some sIt ∧
    (syncCalendarPair now st.lastSync S L).2.getItem i = some sIt := by
  have he := sync_true_inv now st st2 hrun
  subst he
  obtain ⟨hsf, hlf⟩ := syncLoop_find now st.lastSync st.serverCals
    st.localCals id S L hnd hS hL
  have hSi : S.getItem i = some sIt :=
    getItem_eq_some_of_mem_nodup S i sIt hndS (mem_serverMod_sub _ S _ hm)
  have hserver : (syncCalendarPair now st.lastSync S L).1.getItem i =
      S.getItem i :=
    syncPair_server_getItem_of_mod now st.lastSync S L i hkL
      ⟨(i, sIt), hm, rfl⟩
  have hlocal2 : (syncCalendarPair now st.lastSync S L).2.getItem i =
      some sIt :=
    syncPair_local_getItem_of_mod now st.lastSync S L i sIt hndS hkS hm
  exact ⟨hsf, hlf, hSi, by rw [hserver, hSi], hlocal2⟩

/-- C2: with no intervening change, a second sync pass leaves every calendar
of both sources exactly as the first pass left it. -/
theorem claim_C2 (st st1 st2 : ProviderState) (now1 now2 : Timestamp)
    (hwf : WFState st now1)
    (h1 : sync true now1 st = some st1)
    (h2 : sync true now2 st1 = some st2) :
    st2.serverCals = st1.serverCals ∧ st2.localCals = st1.localCals := by
  obtain ⟨hndS, hndL, hWS, hWL⟩ := hwf
  have e1 := sync_true_inv now1 st st1 h1
  subst e1
  have e2 := sync_true_inv now2 _ st2 h2
  subst e2
  have hndS1 : ((syncLoop now1 st.lastSync st.serverCals
      st.localCals).1.map Prod.fst).Nodup := by
    rw [syncLoop_server_map_fst]
    exact hndS
  have hndL1 : ((syncLoop now1 st.lastSync st.serverCals
      st.localCals).2.map Prod.fst).Nodup := by
    rw [syncLoop_local_map_fst]
    exact hndL
  have H : ∀ p ∈ (syncLoop now1 st.lastSync st.serverCals st.localCals).1,
      ∀ q, (syncLoop now1 st.lastSync st.serverCals st.localCals).2.find?
        (fun x => x.1 == p.1) = some q →
      syncCalendarPair now2 (some now1) p.2 q.2 = (p.2, q.2) ∧
      updateCal (syncLoop now1 st.lastSync st.serverCals st.localCals).2
        p.1 q.2 =
        (syncLoop now1 st.lastSync st.serverCals st.localCals).2 := by
    intro p hp q hq
    rcases p with ⟨pid, pS⟩
    rcases q with ⟨qid, qL⟩
    have hq1 : pid = qid := (find?_key_shape _ pid _ hq).symm
    subst hq1
    have hpmem : pid ∈ st.serverCals.map Prod.fst := by
      rw [← syncLoop_server_map_fst now1 st.lastSync st.serverCals
        st.localCals]
      exact List.mem_map_of_mem Prod.fst hp
    obtain ⟨e, he, hei⟩ := List.mem_map.mp hpmem
    rcases e with ⟨eid, S0⟩
    rw [show eid = pid from hei] at he
    have hqmem : pid ∈ st.localCals.map Prod.fst := by
      rw [← syncLoop_local_map_fst now1 st.lastSync st.serverCals
        st.localCals]
      exact List.mem_map_of_mem Prod.fst (List.mem_of_find?_eq_some hq)
    obtain ⟨f, hf, hfi⟩ := List.mem_map.mp hqmem
    rcases f with ⟨fid, L0⟩
    rw [show fid = pid from hfi] at hf
    have hSfind : st.serverCals.find? (fun x => x.1 == pid) =
        some (pid, S0) :=
      find?_fst_of_mem_nodup st.serverCals (pid, S0) hndS he
    have hLfind : st.localCals.find? (fun x => x.1 == pid) =
        some (pid, L0) :=
      find?_fst_of_mem_nodup st.localCals (pid, L0) hndL hf
    obtain ⟨hsf, hlf⟩ := syncLoop_find now1 st.lastSync st.serverCals
      st.localCals pid S0 L0 hndS hSfind hLfind
    have hpfind : (syncLoop now1 st.lastSync st.serverCals
        st.localCals).1.find? (fun x => x.1 == pid) = some (pid, pS) :=
      find?_fst_of_mem_nodup _ (pid, pS) hndS1 hp
    have hps : pS = (syncCalendarPair now1 st.lastSync S0 L0).1 :=
      congrArg Prod.snd (Option.some.inj (hpfind.symm.trans hsf))
    have hqs : qL = (syncCalendarPair now1 st.lastSync S0 L0).2 :=
      congrArg Prod.snd (Option.some.inj (hq.symm.trans hlf))
    obtain ⟨hkS0, htS0⟩ := hWS (pid, S0) he
    obtain ⟨hkL0, htL0, hdc0⟩ := hWL (pid, L0) hf
    constructor
    · rw [hps, hqs]
      exact syncPair_then_noop now1 now2 st.lastSync S0 L0 hkS0 hkL0 htS0
        htL0 hdc0
    · apply updateCal_eq_self _ pid qL hndL1
      exact List.mem_of_find?_eq_some hq
  have hloop := syncLoop_id now2 (some now1) _ _ H
  exact ⟨congrArg Prod.fst hloop, congrArg Prod.snd hloop⟩

/-- C3: under a watermarked successful sync, a locally deleted id that the
server did not modify (and that was not re-created locally) disappears from
the server calendar, and an id present locally but absent from the server
disappears from the local calendar. -/
theorem claim_C3 (st st2 : ProviderState) (now : Timestamp) (id : CalendarId)
    (S L : Calendar) (d : Timestamp) (i1 i2 : ItemId) (t : Timestamp)
    (hw : st.lastSync = some d)
    (hnd : (st.serverCals.map Prod.fst).Nodup)
    (hS : st.serverCals.find? (fun p => p.1 == id) = some (id, S))
    (hL : st.localCals.find? (fun p => p.1 == id) = some (id, L))
    (hkS : keyWF S) (hkL : keyWF L)
    (hdel : (i1, t) ∈ L.deletions) (ht : d < t)
    (hnm : ∀ q ∈ serverModOf (some d) S, q.1 ≠ i1)
    (hni : ∀ p ∈ L.items, p.1 ≠ i1)
    (hin : i2 ∈ L.getItemIds) (habs : ∀ p ∈ S.items, p.1 ≠ i2)
    (hrun : sync true now st = some st2) :
    st2.serverCals.find? (fun p => p.1 == id) =
      some (id, (syncCalendarPair now (some d) S L).1) ∧
    st2.localCals.find? (fun p => p.1 == id) =
      some (id, (syncCalendarPair now (some d) S L).2) ∧
    (syncCalendarPair now (some d) S L).1.getItem i1 = none ∧
    (syncCalendarPair now (some d) S L).2.getItem i2 = none := by
  have he := sync_true_inv now st st2 hrun
  subst he
  obtain ⟨hsf, hlf⟩ := syncLoop_find now st.lastSync st.serverCals
    st.localCals id S L hnd hS hL
  rw [hw] at hsf hlf
  rw [hw]
  refine ⟨hsf, hlf, ?_, ?_⟩
  · exact syncPair_local_deletion_propagated now d S L i1 t hdel ht hnm hni
      hkL
  · exact syncPair_remote_deletion_propagated now d S L i2 hin habs hkS

/-- C4: a failing calendar-list fetch aborts the pass with no state change at
all; a successful pass sets the watermark to the current time, so when the
clock has not gone backwards the watermark never decreases. -/
theorem claim_C4 (st st2 : ProviderState) (now : Timestamp)
    (hmono : wmLe st.lastSync (some now)) :
    sync false now st = none ∧
    (sync true now st = some st2 →
      st2.lastSync = some now ∧ wmLe st.lastSync st2.lastSync) := by
  refine ⟨rfl, fun h => ?_⟩
  have he := sync_true_inv now st st2 h
  subst he
  exact ⟨rfl, hmono⟩

/-- C7: a first-ever sync (no watermark) computes no remote deletions and no
local deletions: nothing is removed from the local calendar for being absent
on the server, and no deletion is pushed to the server. -/
theorem claim_C7 (st st2 : ProviderState) (now : Timestamp) (id : CalendarId)
    (S L : Calendar) (i : ItemId)
    (hw : st.lastSync = none)
    (hnd : (st.serverCals.map Prod.fst).Nodup)
    (hS : st.serverCals.find? (fun p => p.1 == id) = some (id, S))
    (hL : st.localCals.find? (fun p => p.1 == id) = some (id, L))
    (hkS : keyWF S)
    (habs : ∀ p ∈ S.items, p.1 ≠ i)
    (hrun : sync true now st = some st2) :
    remoteDeletions st.lastSync S L = [] ∧
    localDelOf now st.lastSync S L = [] ∧
    serverRemovals now st.lastSync S L = [] ∧
    st2.localCals.find? (fun p => p.1 == id) =
      some (id, (syncCalendarPair now st.lastSync S L).2) ∧
    (syncCalendarPair now st.lastSync S L).2.getItem i = L.getItem i := by
  have he := sync_true_inv now st st2 hrun
  subst he
  obtain ⟨hsf, hlf⟩ := syncLoop_find now st.lastSync st.serverCals
    st.localCals id S L hnd hS hL
  rw [hw] at hlf
  rw [hw]
  exact ⟨rfl, rfl, rfl, hlf,
    syncPair_first_sync_local_preserved now S L hkS i habs⟩

/-- C8: a server calendar with no local counterpart is skipped: sync still
succeeds, no local calendar is created for that id, and the server's entry
for that id is left exactly as it was. -/
theorem claim_C8 (st st2 : ProviderState) (now : Timestamp) (id : CalendarId)
    (hmiss : st.localCals.find? (fun p => p.1 == id) = none)
    (hrun : sync true now st = some st2) :
    (sync true now st).isSome = true ∧
    st2.localCals.find? (fun p => p.1 == id) = none ∧
    st2.serverCals.find? (fun p => p.1 == id) =
      st.serverCals.find? (fun p => p.1 == id) := by
  have he := sync_true_inv now st st2 hrun
  subst he
  obtain ⟨hs, hl⟩ := syncLoop_skip now st.lastSync st.serverCals st.localCals
    id hmiss
  exact ⟨rfl, hl, hs⟩

/-- C1 witness: item 1 was edited on the server (content 100, at time 5) and
locally (content 999, at time 6) since the watermark 4; after the merge both
calendars hold the server's version. -/
theorem claim_C1_witness :
    (syncCalendarPair 10 (some 4) ⟨[(1, ⟨1, 100, 5⟩)], []⟩
      ⟨[(1, ⟨1, 999, 6⟩)], []⟩).1.getItem 1 = some ⟨1, 100, 5⟩ ∧
    (syncCalendarPair 10 (some 4) ⟨[(1, ⟨1, 100, 5⟩)], []⟩
      ⟨[(1, ⟨1, 999, 6⟩)], []⟩).2.getItem 1 = some ⟨1, 100, 5⟩ := by
  have h := claim_C1
    ⟨[(0, ⟨[(1, ⟨1, 100, 5⟩)], []⟩)], [(0, ⟨[(1, ⟨1, 999, 6⟩)], []⟩)],
      some 4⟩
    ⟨[(0, ⟨[(1, ⟨1, 100, 5⟩)], []⟩)],
      [(0, ⟨[(1, ⟨1, 100, 5⟩)], [(1, 10)]⟩)], some 10⟩
    10 0 ⟨[(1, ⟨1, 100, 5⟩)], []⟩ ⟨[(1, ⟨1, 999, 6⟩)], []⟩ 1 ⟨1, 100, 5⟩
    (by decide) (by decide) (by decide) (by decide) (by decide) (by decide)
    (by decide) (Or.inl (by decide)) (by decide)
  exact ⟨h.2.2.2.1, h.2.2.2.2⟩

/-- C2 witness: a first sync merges a one-item server calendar with a
one-item local calendar; the second pass reproduces both calendars
verbatim. -/
theorem claim_C2_witness :
    ([(0, (⟨[(1, ⟨1, 100, 5⟩), (2, ⟨2, 200, 5⟩)], []⟩ : Calendar))] =
      [(0, (⟨[(1, ⟨1, 100, 5⟩), (2, ⟨2, 200, 5⟩)], []⟩ : Calendar))]) ∧
    ([(0, (⟨[(2, ⟨2, 200, 5⟩), (1, ⟨1, 100, 5⟩)], [(1, 10)]⟩ : Calendar))] =
      [(0, (⟨[(2, ⟨2, 200, 5⟩), (1, ⟨1, 100, 5⟩)], [(1, 10)]⟩ :
        Calendar))]) := by
  have h := claim_C2
    ⟨[(0, ⟨[(1, ⟨1, 100, 5⟩)], []⟩)], [(0, ⟨[(2, ⟨2, 200, 5⟩)], []⟩)], none⟩
    ⟨[(0, ⟨[(1, ⟨1, 100, 5⟩), (2, ⟨2, 200, 5⟩)], []⟩)],
      [(0, ⟨[(2, ⟨2, 200, 5⟩), (1, ⟨1, 100, 5⟩)], [(1, 10)]⟩)], some 10⟩
    ⟨[(0, ⟨[(1, ⟨1, 100, 5⟩), (2, ⟨2, 200, 5⟩)], []⟩)],
      [(0, ⟨[(2, ⟨2, 200, 5⟩), (1, ⟨1, 100, 5⟩)], [(1, 10)]⟩)], some 20⟩
    10 20 (by decide) (by decide) (by decide)
  exact h

/-- C3 witness: id 3 was deleted locally at time 6 (watermark 4) and not
modified on the server, so it vanishes from the server; id 2 exists locally
but not on the server, so it vanishes from the local calendar. -/
theorem claim_C3_witness :
    (syncCalendarPair 10 (some 4) ⟨[(3, ⟨3, 300, 2⟩)], []⟩
      ⟨[(2, ⟨2, 200, 5⟩)], [(3, 6)]⟩).1.getItem 3 = none ∧
    (syncCalendarPair 10 (some 4) ⟨[(3, ⟨3, 300, 2⟩)], []⟩
      ⟨[(2, ⟨2, 200, 5⟩)], [(3, 6)]⟩).2.getItem 2 = none := by
  have h := claim_C3
    ⟨[(0, ⟨[(3, ⟨3, 300, 2⟩)], []⟩)],
      [(0, ⟨[(2, ⟨2, 200, 5⟩)], [(3, 6)]⟩)], some 4⟩
    ⟨[(0, ⟨[], [(3, 10), (2, 10)]⟩)], [(0, ⟨[], [(3, 6), (2, 10)]⟩)],
      some 10⟩
    10 0 ⟨[(3, ⟨3, 300, 2⟩)], []⟩ ⟨[(2, ⟨2, 200, 5⟩)], [(3, 6)]⟩ 4 3 2 6
    (by decide) (by decide) (by decide) (by decide) (by decide) (by decide)
    (by decide) (by decide) (by decide) (by decide) (by decide) (by decide)
    (by decide)
  exact ⟨h.2.2.1, h.2.2.2⟩

/-- C4 witness: with watermark 3 and clock 5, a failed pass changes nothing
and a successful pass advances the watermark to 5. -/
theorem claim_C4_witness :
    sync false 5 (⟨[], [], some 3⟩ : ProviderState) = none ∧
    (sync true 5 (⟨[], [], some 3⟩ : ProviderState) =
        some (⟨[], [], some 5⟩ : ProviderState) →
      (⟨[], [], some 5⟩ : ProviderState).lastSync = some 5 ∧
      wmLe (some 3) (some 5)) :=
  claim_C4 ⟨[], [], some 3⟩ ⟨[], [], some 5⟩ 5 (by decide)

/-- C7 witness: a first sync against a server lacking local id 2 computes no
deletions at all and keeps item 2 locally. -/
theorem claim_C7_witness :
    remoteDeletions none ⟨[(1, ⟨1, 100, 5⟩)], []⟩
      ⟨[(2, ⟨2, 200, 5⟩)], []⟩ = [] ∧
    serverRemovals 10 none ⟨[(1, ⟨1, 100, 5⟩)], []⟩
      ⟨[(2, ⟨2, 200, 5⟩)], []⟩ = [] ∧
    (syncCalendarPair 10 none ⟨[(1, ⟨1, 100, 5⟩)], []⟩
        ⟨[(2, ⟨2, 200, 5⟩)], []⟩).2.getItem 2 =
      (⟨[(2, ⟨2, 200, 5⟩)], []⟩ : Calendar).getItem 2 := by
  have h := claim_C7
    ⟨[(0, ⟨[(1, ⟨1, 100, 5⟩)], []⟩)], [(0, ⟨[(2, ⟨2, 200, 5⟩)], []⟩)], none⟩
    ⟨[(0, ⟨[(1, ⟨1, 100, 5⟩), (2, ⟨2, 200, 5⟩)], []⟩)],
      [(0, ⟨[(2, ⟨2, 200, 5⟩), (1, ⟨1, 100, 5⟩)], [(1, 10)]⟩)], some 10⟩
    10 0 ⟨[(1, ⟨1, 100, 5⟩)], []⟩ ⟨[(2, ⟨2, 200, 5⟩)], []⟩ 2
    (by decide) (by decide) (by decide) (by decide) (by decide) (by decide)
    (by decide)
  exact ⟨h.1, h.2.2.1, h.2.2.2.2⟩

/-- C8 witness: a server calendar with id 7 and no local counterpart is
skipped: the pass succeeds, creates no local calendar, and leaves the
server entry as it was. -/
theorem claim_C8_witness :
    (sync true 4 (⟨[(7, ⟨[], []⟩)], [], some 1⟩ : ProviderState)).isSome =
      true ∧
    (([] : List (CalendarId × Calendar)).find? (fun p => p.1 == 7) = none) ∧
    (([(7, (⟨[], []⟩ : Calendar))] : List (CalendarId × Calendar)).find?
        (fun p => p.1 == 7) =
      ([(7, (⟨[], []⟩ : Calendar))] : List (CalendarId × Calendar)).find?
        (fun p => p.1 == 7)) := by
  have h := claim_C8 ⟨[(7, ⟨[], []⟩)], [], some 1⟩
    ⟨[(7, ⟨[], []⟩)], [], some 4⟩ 4 7 (by decide) (by decide)
  exact h

end Sync

end KitchenFridge
